import Mathlib

/-!
# Verification of the rusty_snake core (src/main.rs)

Shallow embedding of the final variant in `src/main.rs`: the `Direction` and
`Coordinate` value types, the `Field` grid that doubles as an implicit linked
list for the snake body, the per-tick step protocol of `main`'s game loop, and
the snake strategies (`GreedyPickySnake`, `HamiltonianSnake`).

Machine integers (`isize`) are modelled as `Int`; the bounds checks of the
program keep every index it actually uses nonnegative and in range.  The
`while` loop of `Field::drop_last` is modelled with explicit fuel, `none`
meaning the loop is still running after that many guard evaluations.  The
random number generator is modelled by passing the drawn offsets explicitly.
-/

namespace Snake

/-- `fn odd(value: isize) -> bool { value & 1 == 1 }`.  For `Int` in two's
complement, `value &&& 1 == 1` agrees with `value % 2 == 1` (`emod`), which we
use as the definition. -/
def odd (value : Int) : Bool := value % 2 == 1

/-- `enum Direction { Left, Right, Up, Down, End, Null }` -/
inductive Direction where
  | Left
  | Right
  | Up
  | Down
  | End
  | Null
deriving DecidableEq, Repr

/-- `Direction::invert` -/
def Direction.invert : Direction → Direction
  | .Left => .Right
  | .Right => .Left
  | .Up => .Down
  | .Down => .Up
  | .End => .End
  | .Null => .Null

/-- `Direction::valid`: true exactly for the four cardinal movement values. -/
def Direction.valid : Direction → Bool
  | .End => false
  | .Null => false
  | _ => true

/-- `struct Coordinate { x: isize, y: isize }` -/
structure Coordinate where
  x : Int
  y : Int
deriving DecidableEq, Repr

/-- `Coordinate::move_towards` -/
def Coordinate.move_towards (c : Coordinate) : Direction → Coordinate
  | .Left => ⟨c.x - 1, c.y⟩
  | .Right => ⟨c.x + 1, c.y⟩
  | .Up => ⟨c.x, c.y - 1⟩
  | .Down => ⟨c.x, c.y + 1⟩
  | .End => ⟨c.x, c.y⟩
  | .Null => ⟨c.x, c.y⟩

/-- `Coordinate::difference`: vector from `c` to `other`. -/
def Coordinate.difference (c other : Coordinate) : Coordinate :=
  ⟨other.x - c.x, other.y - c.y⟩

/-- `struct Field { dimension: Coordinate, directions: Vec<Vec<Direction>> }`,
indexed `directions[y][x]`. -/
structure Field where
  dimension : Coordinate
  directions : List (List Direction)
deriving DecidableEq, Repr

/-- `Field::init`: a `dimension.y` by `dimension.x` grid of `Null`. -/
def Field.init (dimension : Coordinate) : Field :=
  ⟨dimension, List.replicate dimension.y.toNat (List.replicate dimension.x.toNat .Null)⟩

theorem Field.dimension_init (dimension : Coordinate) :
    (Field.init dimension).dimension = dimension := rfl

/-- `Field::get`: `directions[y][x]` (callers bounds-check first). -/
def Field.get (f : Field) (position : Coordinate) : Direction :=
  (f.directions.getD position.y.toNat []).getD position.x.toNat .Null

/-- `Field::set`: `directions[y][x] = direction`. -/
def Field.set (f : Field) (position : Coordinate) (direction : Direction) : Field :=
  let row := (f.directions.getD position.y.toNat []).set position.x.toNat direction
  { f with directions := f.directions.set position.y.toNat row }

/-- `Field::next`: follow the stored direction one step. -/
def Field.next (f : Field) (position : Coordinate) : Coordinate :=
  position.move_towards (f.get position)

/-- `Field::valid`: the bounds check. -/
def Field.valid (f : Field) (position : Coordinate) : Prop :=
  0 ≤ position.x ∧ 0 ≤ position.y ∧ position.x < f.dimension.x ∧ position.y < f.dimension.y

instance (f : Field) (position : Coordinate) : Decidable (f.valid position) := by
  unfold Field.valid
  infer_instance

/-- `Field::available`: the cell content is `Null`. -/
def Field.available (f : Field) (position : Coordinate) : Prop :=
  f.get position = .Null

instance (f : Field) (position : Coordinate) : Decidable (f.available position) := by
  unfold Field.available
  infer_instance

/-- `Field::random_available`: scan all cells in row-major order starting from
the random offset `r` (the value `self.dimension.random(rng)` drawn in the
source), wrapping both axes, and return the first available cell. -/
def Field.random_available (f : Field) (r : Coordinate) : Option Coordinate :=
  (List.range f.dimension.y.toNat).findSome? fun (y : Nat) =>
    (List.range f.dimension.x.toNat).findSome? fun (x : Nat) =>
      let p : Coordinate := ⟨((x : Int) + r.x) % f.dimension.x, ((y : Int) + r.y) % f.dimension.y⟩
      if f.available p then some p else none

/-- The `while` loop of `Field::drop_last`, with state `(a, b)` and explicit
fuel: one unit of fuel per evaluation of the guard `self.get(b) != End`.
`none` means the loop is still running after `fuel` guard evaluations. -/
def Field.dropLastGo (f : Field) (a b : Coordinate) : Nat → Option (Field × Coordinate)
  | 0 => none
  | fuel + 1 =>
      if f.get b = .End then some ((f.set a .End).set b .Null, b)
      else f.dropLastGo b (f.next b) fuel

/-- `Field::drop_last`: follow the chain from `start` until the cell `b` after
the cursor holds `End`; then set the cursor cell to `End`, the cell `b` to
`Null`, and return `b`. -/
def Field.drop_last (f : Field) (start : Coordinate) (fuel : Nat) :
    Option (Field × Coordinate) :=
  f.dropLastGo start (f.next start) fuel

/-- `struct Game` (the `rng` is externalized: each random draw is passed in). -/
structure Game where
  head : Coordinate
  apple : Coordinate
  field : Field
  apples : Nat
  moves : Nat
deriving DecidableEq, Repr

/-- The outcomes a tick of `main`'s game loop can report. -/
inductive Outcome where
  | Continued
  | Forfeit
  | InvalidDirection
  | CrashedWall
  | AteSnake
  | Won
deriving DecidableEq, Repr

/-- One iteration of the game loop in `main` (src/main.rs lines 343-391).
`snakeDir` is the strategy's answer (`none` = forfeit), `r` is the random
offset used by `new_apple` if an apple is eaten, and `fuel` bounds the
`drop_last` traversal.  The result is `none` when `drop_last` is still
looping after `fuel` steps; otherwise the reported outcome and the state at
the end of the tick.  `moves += 1` executes only at the bottom of the loop
body, after every `break`, exactly as in the source. -/
def Game.step (g : Game) (snakeDir : Option Direction) (r : Coordinate) (fuel : Nat) :
    Option (Outcome × Game) :=
  match snakeDir with
  | none => some (.Forfeit, g)
  | some dir =>
    if ¬ dir.valid then some (.InvalidDirection, g)
    else
      let head := g.head.move_towards dir
      if ¬ g.field.valid head then some (.CrashedWall, g)
      else if g.field.get head ≠ .End then
        if ¬ g.field.available head then some (.AteSnake, g)
        else
          let g1 : Game := { g with field := g.field.set head dir.invert, head := head }
          if g1.head = g1.apple then
            match g1.field.random_available r with
            | none => some (.Won, { g1 with apples := g1.apples + 1 })
            | some ap =>
                some (.Continued,
                  { g1 with apples := g1.apples + 1, apple := ap, moves := g1.moves + 1 })
          else
            match g1.field.drop_last g1.head fuel with
            | none => none
            | some (f2, _) => some (.Continued, { g1 with field := f2, moves := g1.moves + 1 })
      else
        match g.field.drop_last g.head fuel with
        | none => none
        | some (f2, _) =>
            some (.Continued,
              { g with field := f2.set head dir.invert, head := head, moves := g.moves + 1 })

/-- `GreedyPickySnake::prioritize`: rank the four directions. -/
def GreedyPickySnake.prioritize (snake apple : Coordinate) : List Direction :=
  let delta := snake.difference apple
  if (|delta.x| < |delta.y| ∨ delta.y = 0) ∧ delta.x ≠ 0 then
    [if delta.x > 0 then .Right else .Left,
     if delta.y > 0 then .Down else .Up,
     if delta.y ≤ 0 then .Down else .Up,
     if delta.x ≤ 0 then .Right else .Left]
  else
    [if delta.y > 0 then .Down else .Up,
     if delta.x > 0 then .Right else .Left,
     if delta.x ≤ 0 then .Right else .Left,
     if delta.y ≤ 0 then .Down else .Up]

/-- `GreedyPickySnake::available`: the target cell of `dir` is in bounds and free. -/
def GreedyPickySnake.available (game : Game) (dir : Direction) : Bool :=
  let pos := game.head.move_towards dir
  decide (game.field.valid pos ∧ game.field.available pos)

/-- `GreedyPickySnake::move_to`: first direction of the priority order whose
target cell is in bounds and free; `none` if no direction qualifies. -/
def GreedyPickySnake.move_to (game : Game) : Option Direction :=
  (GreedyPickySnake.prioritize game.head game.apple).find? fun dir =>
    GreedyPickySnake.available game dir

/-- The decision tree of `HamiltonianSnake::move_to`, as a pure function of the
grid dimensions, head and apple (the only state it reads). -/
def hamiltonianMove (w h : Int) (head apple : Coordinate) : Direction :=
  let x := head.x
  let y := head.y
  if y = 0 then (if x > 0 then .Left else .Down)
  else if x = w - 1 then
    (if odd x then .Up
     else if odd (h - y) then .Up
     else if y = 1 ∧ odd w ∧ odd h ∧ apple.y = 0 then .Up
     else .Left)
  else if x = w - 2 ∧ odd w then (if ¬ odd (h - y) then .Up else .Right)
  else if odd x then (if y > 1 then .Up else .Right)
  else (if y < h - 1 then .Down else .Right)

/-- `HamiltonianSnake::move_to`. -/
def HamiltonianSnake.move_to (game : Game) : Option Direction :=
  some (hamiltonianMove game.field.dimension.x game.field.dimension.y game.head game.apple)

/-! ## Basic parity and grid helpers -/

theorem odd_eq_true_iff (v : Int) : odd v = true ↔ v % 2 = 1 := by
  simp [odd]

theorem odd_eq_false_iff (v : Int) : odd v = false ↔ v % 2 = 0 := by
  simp [odd]

/-- Membership in a `w` by `h` grid (the property `Field::valid` checks for a
field of that dimension). -/
def inGrid (w h : Int) (c : Coordinate) : Prop :=
  0 ≤ c.x ∧ 0 ≤ c.y ∧ c.x < w ∧ c.y < h

instance (w h : Int) (c : Coordinate) : Decidable (inGrid w h c) := by
  unfold inGrid
  infer_instance

theorem valid_iff_inGrid (f : Field) (c : Coordinate) :
    f.valid c ↔ inGrid f.dimension.x f.dimension.y c := Iff.rfl

/-! ## C7: the moves counter -/

/-- C7, counterexample.  The claim says `moves` increments exactly once per
tick regardless of the tick's outcome, including ticks that end with
`CrashedWall`.  On a 2 by 2 board with the head at `(0,0)`, stepping `Left`
crashes into the wall and the tick leaves `moves` at `0`, not `1`: the source
increments `game.moves` only at the bottom of the loop body, after every
`break`. -/
theorem c7_counterexample :
    (Game.step ⟨⟨0, 0⟩, ⟨1, 1⟩, (Field.init ⟨2, 2⟩).set ⟨0, 0⟩ .End, 0, 0⟩
        (some .Left) ⟨0, 0⟩ 4).map (fun p => (p.1, p.2.moves)) =
      some (.CrashedWall, 0) := by
  decide

/-- C7, amended.  The `moves` counter increments exactly once per tick that
ends with `Continued`, and is left unchanged by ticks that end with any
terminal outcome (`CrashedWall`, `AteSnake`, `Forfeit`, `InvalidDirection`,
`Won`); `apples_eaten` increments only on ticks where the new head coordinate
equals the apple coordinate. -/
theorem c7_moves_counter_amended :
    ∀ (g : Game) (snakeDir : Option Direction) (r : Coordinate) (fuel : Nat)
      (out : Outcome) (g' : Game),
      g.step snakeDir r fuel = some (out, g') →
      (out = .Continued → g'.moves = g.moves + 1) ∧
      (out ≠ .Continued → g'.moves = g.moves) ∧
      (g'.apples ≠ g.apples →
        g'.apples = g.apples + 1 ∧
        ∃ dir, snakeDir = some dir ∧ g'.head = g.head.move_towards dir ∧ g'.head = g.apple) := by
  intro g snakeDir r fuel out g' h
  cases snakeDir with
  | none =>
      simp only [Game.step, Option.some.injEq, Prod.mk.injEq] at h
      obtain ⟨rfl, rfl⟩ := h
      simp
  | some dir =>
      simp only [Game.step] at h
      split at h
      · simp only [Option.some.injEq, Prod.mk.injEq] at h
        obtain ⟨rfl, rfl⟩ := h
        simp
      · split at h
        · simp only [Option.some.injEq, Prod.mk.injEq] at h
          obtain ⟨rfl, rfl⟩ := h
          simp
        · split at h
          · split at h
            · simp only [Option.some.injEq, Prod.mk.injEq] at h
              obtain ⟨rfl, rfl⟩ := h
              simp
            · split at h
              · split at h
                · simp only [Option.some.injEq, Prod.mk.injEq] at h
                  obtain ⟨rfl, rfl⟩ := h
                  refine ⟨by simp, by simp, ?_⟩
                  intro _
                  refine ⟨rfl, dir, rfl, rfl, by assumption⟩
                · simp only [Option.some.injEq, Prod.mk.injEq] at h
                  obtain ⟨rfl, rfl⟩ := h
                  refine ⟨by simp, by simp, ?_⟩
                  intro _
                  refine ⟨rfl, dir, rfl, rfl, by assumption⟩
              · split at h
                · exact absurd h (by simp)
                · simp only [Option.some.injEq, Prod.mk.injEq] at h
                  obtain ⟨rfl, rfl⟩ := h
                  simp
          · split at h
            · exact absurd h (by simp)
            · simp only [Option.some.injEq, Prod.mk.injEq] at h
              obtain ⟨rfl, rfl⟩ := h
              simp

/-! ## C9: terminal outcomes are atomic -/

/-- C9.  If the candidate cell is out of bounds the tick reports
`CrashedWall`; if it is in bounds but holds neither `Terminator` nor `Empty`
the tick reports `AteSnake`.  In both cases the returned state is the input
state itself: field contents, head, apple and `apples_eaten` are all
unchanged (terminal outcomes are atomic). -/
theorem c9_terminal_atomic :
    ∀ (g : Game) (dir : Direction) (r : Coordinate) (fuel : Nat),
      dir.valid = true →
      (¬ g.field.valid (g.head.move_towards dir) →
        g.step (some dir) r fuel = some (.CrashedWall, g)) ∧
      (g.field.valid (g.head.move_towards dir) →
        g.field.get (g.head.move_towards dir) ≠ .End →
        ¬ g.field.available (g.head.move_towards dir) →
        g.step (some dir) r fuel = some (.AteSnake, g)) := by
  intro g dir r fuel hvalid
  constructor
  · intro hob
    simp [Game.step, hvalid, hob]
  · intro hib hne hnav
    simp [Game.step, hvalid, hib, hne, hnav]

/-- C9, witness: a concrete crash and a concrete self-collision. -/
theorem c9_witness :
    (Game.step ⟨⟨0, 0⟩, ⟨1, 1⟩, (Field.init ⟨2, 2⟩).set ⟨0, 0⟩ .End, 0, 0⟩
        (some .Left) ⟨0, 0⟩ 4 = some (.CrashedWall, ⟨⟨0, 0⟩, ⟨1, 1⟩, (Field.init ⟨2, 2⟩).set ⟨0, 0⟩ .End, 0, 0⟩)) ∧
    (Game.step ⟨⟨0, 0⟩, ⟨1, 1⟩, ((Field.init ⟨2, 2⟩).set ⟨0, 0⟩ .Right).set ⟨1, 0⟩ .Left, 0, 0⟩
        (some .Right) ⟨0, 0⟩ 4 = some (.AteSnake, ⟨⟨0, 0⟩, ⟨1, 1⟩, ((Field.init ⟨2, 2⟩).set ⟨0, 0⟩ .Right).set ⟨1, 0⟩ .Left, 0, 0⟩)) := by
  constructor
  · exact (c9_terminal_atomic ⟨⟨0, 0⟩, ⟨1, 1⟩, (Field.init ⟨2, 2⟩).set ⟨0, 0⟩ .End, 0, 0⟩
      .Left ⟨0, 0⟩ 4 (by decide)).1 (by decide)
  · exact (c9_terminal_atomic ⟨⟨0, 0⟩, ⟨1, 1⟩, ((Field.init ⟨2, 2⟩).set ⟨0, 0⟩ .Right).set ⟨1, 0⟩ .Left, 0, 0⟩
      .Right ⟨0, 0⟩ 4 (by decide)).2 (by decide) (by decide) (by decide)

/-! ## C10: the Hamiltonian strategy never forfeits and never hits a wall -/

/-- C10.  For every game whose grid has width and height at least 2 and whose
head is in bounds, `HamiltonianSnake::move_to` returns `Some` of a cardinal
direction (never `None`, never `Terminator` or `Empty`), and the candidate
cell one step in that direction is in bounds. -/
theorem c10_hamiltonian_safe :
    ∀ (g : Game), 2 ≤ g.field.dimension.x → 2 ≤ g.field.dimension.y →
      g.field.valid g.head →
      ∃ d, HamiltonianSnake.move_to g = some d ∧ d.valid = true ∧
        g.field.valid (g.head.move_towards d) := by
  intro g hw hh hhead
  refine ⟨_, rfl, ?_, ?_⟩ <;>
  · obtain ⟨hx0, hy0, hxw, hyh⟩ := hhead
    simp only [hamiltonianMove]
    split_ifs <;>
      simp_all [Direction.valid, Coordinate.move_towards, Field.valid,
        odd_eq_true_iff, odd_eq_false_iff, Bool.not_eq_true] <;>
      omega

/-- C10, witness. -/
theorem c10_witness :
    2 ≤ (2 : Int) ∧
    ∃ d, HamiltonianSnake.move_to ⟨⟨0, 0⟩, ⟨1, 1⟩, Field.init ⟨2, 2⟩, 0, 0⟩ = some d ∧
      d.valid = true ∧
      (Field.init ⟨2, 2⟩).valid ((Coordinate.mk 0 0).move_towards d) :=
  ⟨by norm_num,
    c10_hamiltonian_safe ⟨⟨0, 0⟩, ⟨1, 1⟩, Field.init ⟨2, 2⟩, 0, 0⟩
      (by decide) (by decide) (by decide)⟩


/-- C7, witness: a concrete `Continued` tick increments `moves` from 0 to 1. -/
theorem c7_witness :
    Game.step ⟨⟨0, 0⟩, ⟨1, 1⟩, (Field.init ⟨2, 2⟩).set ⟨0, 0⟩ .End, 0, 0⟩ (some .Right) ⟨0, 0⟩ 4 =
      some (.Continued, ⟨⟨1, 0⟩, ⟨1, 1⟩, ⟨⟨2, 2⟩, [[.Null, .End], [.Null, .Null]]⟩, 0, 1⟩) ∧
    (Game.mk ⟨1, 0⟩ ⟨1, 1⟩ ⟨⟨2, 2⟩, [[.Null, .End], [.Null, .Null]]⟩ 0 1).moves = 0 + 1 := by
  have h := c7_moves_counter_amended ⟨⟨0, 0⟩, ⟨1, 1⟩, (Field.init ⟨2, 2⟩).set ⟨0, 0⟩ .End, 0, 0⟩
    (some .Right) ⟨0, 0⟩ 4 .Continued ⟨⟨1, 0⟩, ⟨1, 1⟩, ⟨⟨2, 2⟩, [[.Null, .End], [.Null, .Null]]⟩, 0, 1⟩
    (by decide)
  exact ⟨by decide, h.1 rfl⟩

/-! ## The chain traversal of `Field::drop_last` -/

/-- The `i`-th cell of the chain starting at `s`: `i` applications of
`Field::next`. -/
def chainCell (f : Field) (s : Coordinate) (i : Nat) : Coordinate :=
  (f.next)^[i] s

theorem chainCell_zero (f : Field) (s : Coordinate) : chainCell f s 0 = s := rfl

theorem chainCell_succ (f : Field) (s : Coordinate) (i : Nat) :
    chainCell f s (i + 1) = f.next (chainCell f s i) := by
  unfold chainCell
  rw [Function.iterate_succ_apply']

/-- The loop of `drop_last`, entered with cursor `a = chainCell f s i` and
lookahead `b = chainCell f s (i+1)`, stops at the first `m` whose cell holds
`End`, provided it has at least `m - i` units of fuel. -/
theorem dropLastGo_spec (f : Field) (s : Coordinate) (m : Nat)
    (hne : ∀ j, 1 ≤ j → j < m → f.get (chainCell f s j) ≠ .End)
    (hEnd : f.get (chainCell f s m) = .End) :
    ∀ (fuel i : Nat), i + 1 ≤ m → m ≤ i + fuel →
      f.dropLastGo (chainCell f s i) (chainCell f s (i + 1)) fuel =
        some ((f.set (chainCell f s (m - 1)) .End).set (chainCell f s m) .Null,
          chainCell f s m) := by
  intro fuel
  induction fuel with
  | zero => intro i h1 h2; omega
  | succ n ih =>
      intro i h1 h2
      rw [Field.dropLastGo]
      by_cases hm : i + 1 = m
      · rw [if_pos (hm ▸ hEnd)]
        have hi : i = m - 1 := by omega
        rw [hm, hi]
      · rw [if_neg (hne (i + 1) (by omega) (by omega))]
        rw [← chainCell_succ]
        exact ih (i + 1) (by omega) (by omega)

/-- `Field::drop_last` on a chain that first reaches an `End` cell at index
`m ≥ 1`: the loop stops there, marks cell `m - 1` as `End`, vacates cell `m`
and returns its coordinate. -/
theorem drop_last_spec (f : Field) (s : Coordinate) (m fuel : Nat)
    (hm : 1 ≤ m) (hfuel : m ≤ fuel)
    (hne : ∀ j, 1 ≤ j → j < m → f.get (chainCell f s j) ≠ .End)
    (hEnd : f.get (chainCell f s m) = .End) :
    f.drop_last s fuel =
      some ((f.set (chainCell f s (m - 1)) .End).set (chainCell f s m) .Null,
        chainCell f s m) := by
  have h := dropLastGo_spec f s m hne hEnd fuel 0 (by omega) (by omega)
  exact h

/-- A 2 by 2 field whose four cells form a directed 4-cycle with no `End`
cell anywhere: a malformed chain for `drop_last`. -/
def cycField : Field :=
  ((((Field.init ⟨2, 2⟩).set ⟨0, 0⟩ .Right).set ⟨1, 0⟩ .Down).set ⟨1, 1⟩ .Left).set ⟨0, 1⟩ .Up

theorem cycField_loops :
    ∀ (fuel : Nat) (a b : Coordinate),
      (b = ⟨0, 0⟩ ∨ b = ⟨1, 0⟩ ∨ b = ⟨1, 1⟩ ∨ b = ⟨0, 1⟩) →
      cycField.dropLastGo a b fuel = none := by
  intro fuel
  induction fuel with
  | zero => intro a b _; rfl
  | succ n ih =>
      intro a b hb
      rcases hb with rfl | rfl | rfl | rfl <;>
      · rw [Field.dropLastGo, if_neg (by decide)]
        exact ih _ _ (by decide)

/-! ## C5: termination of the `drop_last` traversal -/

/-- C5, counterexample.  The claim says the implementation asserts the loop
bound `≤ W*H` and raises an internal error on a malformed or cyclic chain.
The source has no such assertion: on the cyclic 2 by 2 field the `while` loop
of `drop_last` is still running after `100` guard evaluations, far past the
claimed `W*H = 4` bound — it loops forever instead of aborting. -/
theorem c5_counterexample : cycField.drop_last ⟨0, 0⟩ 100 = none := by
  exact cycField_loops 100 _ _ (by decide)

/-- C5, amended.  First half: under the precondition that the chain from the
start reaches an `End` cell within `W*H` steps, the loop of `drop_last`
terminates within `W*H` guard evaluations (fuel `W*H` suffices).  Second
half: contrary to the claim, the implementation contains no bound assertion
and no internal error: on a malformed cyclic chain the traversal is still
running after any number of iterations. -/
theorem c5_termination_amended :
    (∀ (f : Field) (s : Coordinate) (m : Nat),
      1 ≤ m → m ≤ (f.dimension.x * f.dimension.y).toNat →
      (∀ j, 1 ≤ j → j < m → f.get (chainCell f s j) ≠ .End) →
      f.get (chainCell f s m) = .End →
      (f.drop_last s (f.dimension.x * f.dimension.y).toNat).isSome = true) ∧
    (∀ fuel : Nat, cycField.drop_last ⟨0, 0⟩ fuel = none) := by
  constructor
  · intro f s m hm hwh hne hEnd
    rw [drop_last_spec f s m _ hm hwh hne hEnd]
    rfl
  · intro fuel
    exact cycField_loops fuel _ _ (by decide)

/-- A concrete two-segment chain on a 2 by 2 board, for the C5 witness. -/
def c5Field : Field := ((Field.init ⟨2, 2⟩).set ⟨0, 0⟩ .Right).set ⟨1, 0⟩ .End

/-- C5, witness: the concrete chain is dropped within fuel `W*H = 4`, and the
cyclic field never finishes, e.g. with fuel 12. -/
theorem c5_witness :
    (c5Field.drop_last ⟨0, 0⟩ 4).isSome = true ∧
    cycField.drop_last ⟨0, 0⟩ 12 = none := by
  constructor
  · exact c5_termination_amended.1 c5Field ⟨0, 0⟩ 1 (by omega) (by decide) (by decide) (by decide)
  · exact c5_termination_amended.2 12

/-! ## Well-formed fields and get/set laws -/

theorem getD_set_ne {α : Type} (l : List α) (m n : Nat) (a d : α) (h : m ≠ n) :
    (l.set m a).getD n d = l.getD n d := by
  rw [List.getD_eq_getD_get?, List.getD_eq_getD_get?, List.get?_eq_getElem?,
    List.get?_eq_getElem?, List.getElem?_set_ne h]

theorem getD_set_self {α : Type} (l : List α) (n : Nat) (a d : α) (h : n < l.length) :
    (l.set n a).getD n d = a := by
  rw [List.getD_eq_getD_get?, List.get?_eq_getElem?, List.getElem?_set_eq_of_lt a h]
  rfl

/-- A field whose `directions` matrix really has the shape its `dimension`
announces (what the `Vec<Vec<Direction>>` of the source guarantees). -/
def Field.WF (f : Field) : Prop :=
  0 < f.dimension.x ∧ 0 < f.dimension.y ∧
  f.directions.length = f.dimension.y.toNat ∧
  ∀ i, i < f.directions.length → (f.directions.getD i []).length = f.dimension.x.toNat

instance (f : Field) : Decidable f.WF := by
  unfold Field.WF
  infer_instance

theorem Field.dimension_set (f : Field) (p : Coordinate) (d : Direction) :
    (f.set p d).dimension = f.dimension := rfl

theorem Field.WF.set (f : Field) (wf : f.WF) (p : Coordinate) (d : Direction) :
    (f.set p d).WF := by
  obtain ⟨hx, hy, hlen, hrows⟩ := wf
  refine ⟨hx, hy, ?_, ?_⟩
  · simpa [Field.set] using hlen
  · intro i hi
    simp only [Field.set, List.length_set] at hi ⊢
    by_cases hiy : i = p.y.toNat
    · subst hiy
      rw [getD_set_self _ _ _ _ hi, List.length_set]
      exact hrows _ hi
    · rw [getD_set_ne _ _ _ _ _ (fun hc => hiy hc.symm)]
      exact hrows _ hi

theorem Field.get_set_self (f : Field) (p : Coordinate) (d : Direction)
    (wf : f.WF) (hp : inGrid f.dimension.x f.dimension.y p) :
    (f.set p d).get p = d := by
  obtain ⟨hx, hy, hlen, hrows⟩ := wf
  obtain ⟨hpx, hpy, hpxlt, hpylt⟩ := hp
  have hylt : p.y.toNat < f.directions.length := by omega
  have hxlt : p.x.toNat < (f.directions.getD p.y.toNat []).length := by
    rw [hrows _ hylt]
    omega
  simp only [Field.get, Field.set]
  rw [getD_set_self _ _ _ _ hylt, getD_set_self _ _ _ _ hxlt]

theorem Field.get_set_ne (f : Field) (p q : Coordinate) (d : Direction)
    (wf : f.WF) (hp : inGrid f.dimension.x f.dimension.y p)
    (hq : inGrid f.dimension.x f.dimension.y q) (hne : q ≠ p) :
    (f.set p d).get q = f.get q := by
  obtain ⟨hx, hy, hlen, hrows⟩ := wf
  obtain ⟨hpx, hpy, hpxlt, hpylt⟩ := hp
  obtain ⟨hqx, hqy, hqxlt, hqylt⟩ := hq
  simp only [Field.get, Field.set]
  by_cases hyy : q.y.toNat = p.y.toNat
  · have hyEq : q.y = p.y := by omega
    have hxx : q.x.toNat ≠ p.x.toNat := by
      intro hc
      apply hne
      have : q.x = p.x := by omega
      cases p; cases q
      simp_all
    have hylt : p.y.toNat < f.directions.length := by omega
    rw [hyy, getD_set_self _ _ _ _ hylt,
      getD_set_ne _ _ _ _ _ (fun hc => hxx hc.symm)]
  · rw [getD_set_ne _ _ _ _ _ (fun hc => hyy hc.symm)]

/-! ## C4: the contract of `drop_tail_from` -/

/-- The degenerate field for the C4 counterexample: a 2 by 2 board whose
start cell itself holds `End`. -/
def c4DegenerateField : Field := (Field.init ⟨2, 2⟩).set ⟨0, 0⟩ .End

/-- C4, counterexample.  The claim quantifies over every field whose chain
reaches a pair `(a, b)` with `b = next(a)` and `get(b) = Terminator`.  When
the start cell itself holds `Terminator`, the first such pair is
`(start, start)`: `drop_last` sets the cell to `End` and then overwrites it
with `Null`, so the returned coordinate reads `Empty` but the "new
predecessor cell" (the same cell) reads `Empty` as well, not `Terminator` as
the claim demands. -/
theorem c4_counterexample :
    c4DegenerateField.get ⟨0, 0⟩ = .End ∧
    c4DegenerateField.next ⟨0, 0⟩ = ⟨0, 0⟩ ∧
    c4DegenerateField.drop_last ⟨0, 0⟩ 4 =
      some ((c4DegenerateField.set ⟨0, 0⟩ .End).set ⟨0, 0⟩ .Null, ⟨0, 0⟩) ∧
    ((c4DegenerateField.set ⟨0, 0⟩ .End).set ⟨0, 0⟩ .Null).get ⟨0, 0⟩ = .Null := by
  decide

/-- C4, amended.  For every well-formed field whose chain from the start
reaches, by repeated `next()`, a pair of *distinct* cells `(a, b)` with
`b = next(a)` and `get(b) = Terminator` (equivalently: the first `End` on the
chain sits at an index `m ≥ 1`, so the start cell itself does not hold
`Terminator`), `drop_tail_from` sets cell `a` to `Terminator`, sets cell `b`
to `Empty` and returns `b`; afterwards the returned coordinate reads `Empty`,
the new predecessor cell reads `Terminator`, and every other cell is
unchanged. -/
theorem c4_drop_tail_spec :
    ∀ (f : Field) (s : Coordinate) (m fuel : Nat),
      f.WF → 1 ≤ m → m ≤ fuel →
      (∀ j, j < m → f.get (chainCell f s j) ≠ .End) →
      f.get (chainCell f s m) = .End →
      (∀ j, j ≤ m → inGrid f.dimension.x f.dimension.y (chainCell f s j)) →
      f.drop_last s fuel =
        some ((f.set (chainCell f s (m - 1)) .End).set (chainCell f s m) .Null,
          chainCell f s m) ∧
      ((f.set (chainCell f s (m - 1)) .End).set (chainCell f s m) .Null).get
          (chainCell f s m) = .Null ∧
      ((f.set (chainCell f s (m - 1)) .End).set (chainCell f s m) .Null).get
          (chainCell f s (m - 1)) = .End ∧
      (∀ p, inGrid f.dimension.x f.dimension.y p →
        p ≠ chainCell f s (m - 1) → p ≠ chainCell f s m →
        ((f.set (chainCell f s (m - 1)) .End).set (chainCell f s m) .Null).get p = f.get p) := by
  intro f s m fuel wf hm hfuel hne hEnd hgrid
  have hprev : f.get (chainCell f s (m - 1)) ≠ .End := hne (m - 1) (by omega)
  have hcne : chainCell f s m ≠ chainCell f s (m - 1) := by
    intro hc
    exact hprev (hc ▸ hEnd)
  have wf1 : (f.set (chainCell f s (m - 1)) .End).WF := Field.WF.set f wf _ _
  have hgm : inGrid f.dimension.x f.dimension.y (chainCell f s m) := hgrid m (by omega)
  have hgm1 : inGrid f.dimension.x f.dimension.y (chainCell f s (m - 1)) :=
    hgrid (m - 1) (by omega)
  refine ⟨?_, ?_, ?_, ?_⟩
  · exact drop_last_spec f s m fuel hm hfuel (fun j _ hj => hne j hj) hEnd
  · exact Field.get_set_self _ _ _ wf1 hgm
  · rw [Field.get_set_ne _ _ _ _ wf1 hgm hgm1 (Ne.symm hcne)]
    exact Field.get_set_self _ _ _ wf hgm1
  · intro p hpg hp1 hpm
    rw [Field.get_set_ne _ _ _ _ wf1 hgm hpg hpm]
    exact Field.get_set_ne _ _ _ _ wf hgm1 hpg hp1

/-- A concrete two-segment chain on a 2 by 2 board, for the C4 witness. -/
def c4Field : Field := ((Field.init ⟨2, 2⟩).set ⟨0, 0⟩ .Right).set ⟨1, 0⟩ .End

/-- C4, witness: on the concrete two-segment chain, the tail cell `(1,0)` is
vacated (reads `Empty`) and the new predecessor `(0,0)` reads `Terminator`. -/
theorem c4_witness :
    c4Field.drop_last ⟨0, 0⟩ 4 =
      some ((c4Field.set (chainCell c4Field ⟨0, 0⟩ 0) .End).set
        (chainCell c4Field ⟨0, 0⟩ 1) .Null, chainCell c4Field ⟨0, 0⟩ 1) ∧
    ((c4Field.set (chainCell c4Field ⟨0, 0⟩ 0) .End).set
        (chainCell c4Field ⟨0, 0⟩ 1) .Null).get (chainCell c4Field ⟨0, 0⟩ 1) = .Null ∧
    ((c4Field.set (chainCell c4Field ⟨0, 0⟩ 0) .End).set
        (chainCell c4Field ⟨0, 0⟩ 1) .Null).get (chainCell c4Field ⟨0, 0⟩ 0) = .End := by
  have h := c4_drop_tail_spec c4Field ⟨0, 0⟩ 1 4 (by decide) (by omega) (by omega)
    (by decide) (by decide) (by decide)
  exact ⟨h.1, h.2.1, h.2.2.1⟩

/-! ## C8: the greedy-picky ranking -/

/-- The ranking described by the claim's words: primary axis is whichever of
`|dx|`, `|dy|` is *larger* (ties and zero `dy` favouring the x-axis), toward
the apple first, then the perpendicular direction toward the apple, then the
two remaining directions in reverse preference.  Stated only to compare with
the source's `prioritize`. -/
def prioritizeClaim (snake apple : Coordinate) : List Direction :=
  let delta := snake.difference apple
  let dx : Direction := if delta.x > 0 then .Right else .Left
  let dy : Direction := if delta.y > 0 then .Down else .Up
  if |delta.x| ≥ |delta.y| ∨ delta.y = 0 then [dx, dy, dy.invert, dx.invert]
  else [dy, dx, dx.invert, dy.invert]

/-- C8, counterexample.  With the head at `(0,0)` and the apple at `(2,1)`,
`|dx| = 2 > 1 = |dy|`, so the claim ranks `Right` first; the code's
condition `(|dx| < |dy| or dy == 0) and dx != 0` is false here, so the code
ranks the y-axis first and returns `[Down, Right, Left, Up]`. -/
theorem c8_counterexample :
    GreedyPickySnake.prioritize ⟨0, 0⟩ ⟨2, 1⟩ = [.Down, .Right, .Left, .Up] ∧
    prioritizeClaim ⟨0, 0⟩ ⟨2, 1⟩ = [.Right, .Down, .Up, .Left] ∧
    GreedyPickySnake.prioritize ⟨0, 0⟩ ⟨2, 1⟩ ≠ prioritizeClaim ⟨0, 0⟩ ⟨2, 1⟩ := by
  refine ⟨?_, ?_, ?_⟩ <;> decide

/-- The ranking the code actually implements, written in the claim's style:
the x-axis is primary exactly when `(|dx| < |dy| or dy = 0) and dx ≠ 0`
(i.e. the *smaller* nonzero delta is preferred, ties going to the y-axis,
zero `dy` with nonzero `dx` going to the x-axis); first the primary
direction toward the apple, then the perpendicular direction toward the
apple, then those two inverted, in reverse preference order. -/
def prioritizeAmended (snake apple : Coordinate) : List Direction :=
  let delta := snake.difference apple
  let dx : Direction := if delta.x > 0 then .Right else .Left
  let dy : Direction := if delta.y > 0 then .Down else .Up
  if (|delta.x| < |delta.y| ∨ delta.y = 0) ∧ delta.x ≠ 0 then [dx, dy, dy.invert, dx.invert]
  else [dy, dx, dx.invert, dy.invert]

theorem find?_eq_some_split {α : Type} (p : α → Bool) :
    ∀ (l : List α) (a : α), l.find? p = some a →
      p a = true ∧ ∃ l1 l2, l = l1 ++ a :: l2 ∧ ∀ e ∈ l1, p e = false := by
  intro l
  induction l with
  | nil => intro a h; cases h
  | cons x xs ih =>
      intro a h
      by_cases hx : p x
      · rw [List.find?_cons_of_pos xs hx] at h
        cases h
        exact ⟨hx, [], xs, rfl, by simp⟩
      · rw [List.find?_cons_of_neg xs hx] at h
        obtain ⟨hpa, l1, l2, hsplit, hl1⟩ := ih a h
        refine ⟨hpa, x :: l1, l2, by simp [hsplit], ?_⟩
        intro e he
        rcases List.mem_cons.mp he with rfl | he
        · exact Bool.not_eq_true _ ▸ (by simpa using hx)
        · exact hl1 e he

/-- C8, amended.  `prioritize` ranks the four directions with the x-axis
primary exactly when `(|dx| < |dy| or dy = 0) and dx ≠ 0` — the code prefers
the axis with the *smaller* remaining (nonzero) distance, with ties and a
doubly-zero delta going to the y-axis — ordered: primary toward the apple,
perpendicular toward the apple, then their inverses in reverse preference;
and `move_to` returns the first direction of that ranking whose target cell
is in bounds and free, or `None` when no direction qualifies. -/
theorem c8_greedy_ranking_amended :
    (∀ snake apple : Coordinate,
      GreedyPickySnake.prioritize snake apple = prioritizeAmended snake apple) ∧
    (∀ g : Game,
      GreedyPickySnake.move_to g = none ↔
        ∀ d ∈ GreedyPickySnake.prioritize g.head g.apple,
          ¬ (g.field.valid (g.head.move_towards d) ∧
             g.field.available (g.head.move_towards d))) ∧
    (∀ (g : Game) (d : Direction),
      GreedyPickySnake.move_to g = some d →
        (g.field.valid (g.head.move_towards d) ∧
         g.field.available (g.head.move_towards d)) ∧
        ∃ l1 l2, GreedyPickySnake.prioritize g.head g.apple = l1 ++ d :: l2 ∧
          ∀ e ∈ l1, ¬ (g.field.valid (g.head.move_towards e) ∧
                       g.field.available (g.head.move_towards e))) := by
  refine ⟨?_, ?_, ?_⟩
  · intro snake apple
    simp only [GreedyPickySnake.prioritize, prioritizeAmended]
    split_ifs <;> first | rfl | omega
  · intro g
    unfold GreedyPickySnake.move_to
    rw [List.find?_eq_none]
    constructor
    · intro h d hd
      have := h d hd
      simpa [GreedyPickySnake.available] using this
    · intro h d hd
      have := h d hd
      simpa [GreedyPickySnake.available] using this
  · intro g d h
    unfold GreedyPickySnake.move_to at h
    obtain ⟨hpd, l1, l2, hsplit, hl1⟩ := find?_eq_some_split _ _ _ h
    refine ⟨by simpa [GreedyPickySnake.available] using hpd, l1, l2, hsplit, ?_⟩
    intro e he
    have := hl1 e he
    simpa [GreedyPickySnake.available] using this

/-- C8, witness: head `(0,0)`, apple `(2,1)` on an empty 3 by 3 board: the
code ranking equals the amended ranking, and `move_to` picks `Down` — the
first direction whose target is in bounds and free (here, the very first). -/
theorem c8_witness :
    GreedyPickySnake.prioritize ⟨0, 0⟩ ⟨2, 1⟩ = prioritizeAmended ⟨0, 0⟩ ⟨2, 1⟩ ∧
    GreedyPickySnake.move_to ⟨⟨0, 0⟩, ⟨2, 1⟩, Field.init ⟨3, 3⟩, 0, 0⟩ = some .Down ∧
    ((Field.init ⟨3, 3⟩).valid ((Coordinate.mk 0 0).move_towards .Down) ∧
     (Field.init ⟨3, 3⟩).available ((Coordinate.mk 0 0).move_towards .Down)) ∧
    (∃ l1 l2, GreedyPickySnake.prioritize ⟨0, 0⟩ ⟨2, 1⟩ = l1 ++ .Down :: l2 ∧
      ∀ e ∈ l1, ¬ ((Field.init ⟨3, 3⟩).valid ((Coordinate.mk 0 0).move_towards e) ∧
                   (Field.init ⟨3, 3⟩).available ((Coordinate.mk 0 0).move_towards e))) := by
  have h := c8_greedy_ranking_amended.2.2 ⟨⟨0, 0⟩, ⟨2, 1⟩, Field.init ⟨3, 3⟩, 0, 0⟩ .Down
    (by decide)
  exact ⟨c8_greedy_ranking_amended.1 ⟨0, 0⟩ ⟨2, 1⟩, by decide, h.1, h.2⟩

/-! ## C6: `random_free_cell` -/

theorem random_available_some (f : Field) (r c : Coordinate)
    (h : f.random_available r = some c) :
    f.available c ∧ inGrid f.dimension.x f.dimension.y c := by
  unfold Field.random_available at h
  obtain ⟨y, hy, hy2⟩ := List.exists_of_findSome?_eq_some h
  obtain ⟨x, hx, hx2⟩ := List.exists_of_findSome?_eq_some hy2
  dsimp only at hx2
  by_cases hav : f.available ⟨(↑x + r.x) % f.dimension.x, (↑y + r.y) % f.dimension.y⟩
  · rw [if_pos hav] at hx2
    cases hx2
    have hwx : 0 < f.dimension.x := by
      have := List.mem_range.mp hx
      omega
    have hwy : 0 < f.dimension.y := by
      have := List.mem_range.mp hy
      omega
    refine ⟨hav, ?_, ?_, ?_, ?_⟩
    · exact Int.emod_nonneg _ (ne_of_gt hwx)
    · exact Int.emod_nonneg _ (ne_of_gt hwy)
    · exact Int.emod_lt_of_pos _ hwx
    · exact Int.emod_lt_of_pos _ hwy
  · rw [if_neg hav] at hx2
    cases hx2

theorem random_available_hits (f : Field) (r u : Coordinate)
    (hg : inGrid f.dimension.x f.dimension.y u) (hav : f.available u) :
    f.random_available r ≠ none := by
  intro h
  obtain ⟨hux, huy, huxlt, huylt⟩ := hg
  have hwx : (0 : Int) < f.dimension.x := by omega
  have hwy : (0 : Int) < f.dimension.y := by omega
  unfold Field.random_available at h
  rw [List.findSome?_eq_none_iff] at h
  have hynn : 0 ≤ (u.y - r.y) % f.dimension.y := Int.emod_nonneg _ (ne_of_gt hwy)
  have hylt : (u.y - r.y) % f.dimension.y < f.dimension.y := Int.emod_lt_of_pos _ hwy
  have h2 := h ((u.y - r.y) % f.dimension.y).toNat (List.mem_range.mpr (by omega))
  rw [List.findSome?_eq_none_iff] at h2
  have hxnn : 0 ≤ (u.x - r.x) % f.dimension.x := Int.emod_nonneg _ (ne_of_gt hwx)
  have hxlt : (u.x - r.x) % f.dimension.x < f.dimension.x := Int.emod_lt_of_pos _ hwx
  have h3 := h2 ((u.x - r.x) % f.dimension.x).toNat (List.mem_range.mpr (by omega))
  dsimp only at h3
  have hxcast : ((((u.x - r.x) % f.dimension.x).toNat : Int)) = (u.x - r.x) % f.dimension.x :=
    Int.toNat_of_nonneg hxnn
  have hycast : ((((u.y - r.y) % f.dimension.y).toNat : Int)) = (u.y - r.y) % f.dimension.y :=
    Int.toNat_of_nonneg hynn
  have hxeq : ((((u.x - r.x) % f.dimension.x).toNat : Int) + r.x) % f.dimension.x = u.x := by
    rw [hxcast, Int.emod_add_emod, sub_add_cancel, Int.emod_eq_of_lt hux huxlt]
  have hyeq : ((((u.y - r.y) % f.dimension.y).toNat : Int) + r.y) % f.dimension.y = u.y := by
    rw [hycast, Int.emod_add_emod, sub_add_cancel, Int.emod_eq_of_lt huy huylt]
  rw [hxeq, hyeq] at h3
  have : u = ⟨u.x, u.y⟩ := rfl
  rw [if_pos (this ▸ hav)] at h3
  cases h3

/-- C6.  For every field and every value of the random offset,
`random_free_cell` returns `Some` of a free in-bounds cell whenever at least
one free cell exists, returns `None` exactly when no in-bounds cell is free,
and when exactly one cell is free it returns that cell for every offset. -/
theorem c6_random_free_cell :
    ∀ (f : Field) (r : Coordinate), 0 ≤ r.x → 0 ≤ r.y →
      ((∃ c, inGrid f.dimension.x f.dimension.y c ∧ f.available c) →
        ∃ c, f.random_available r = some c ∧ f.available c ∧
          inGrid f.dimension.x f.dimension.y c) ∧
      (f.random_available r = none ↔
        ∀ c, inGrid f.dimension.x f.dimension.y c → ¬ f.available c) ∧
      (∀ u, inGrid f.dimension.x f.dimension.y u → f.available u →
        (∀ c, inGrid f.dimension.x f.dimension.y c → f.available c → c = u) →
        f.random_available r = some u) := by
  intro f r _ _
  refine ⟨?_, ⟨?_, ?_⟩, ?_⟩
  · rintro ⟨c, hg, hav⟩
    cases heq : f.random_available r with
    | none => exact absurd heq (random_available_hits f r c hg hav)
    | some c' =>
        obtain ⟨hav', hg'⟩ := random_available_some f r c' heq
        exact ⟨c', rfl, hav', hg'⟩
  · intro h c hg hav
    exact random_available_hits f r c hg hav h
  · intro hall
    cases heq : f.random_available r with
    | none => rfl
    | some c =>
        obtain ⟨hav', hg'⟩ := random_available_some f r c heq
        exact absurd hav' (hall c hg')
  · intro u hg hav huniq
    cases heq : f.random_available r with
    | none => exact absurd heq (random_available_hits f r u hg hav)
    | some c =>
        obtain ⟨hav', hg'⟩ := random_available_some f r c heq
        rw [huniq c hg' hav']

/-- The board for the C6 witness: a 2 by 2 field with exactly one free cell,
`(1,1)`. -/
def c6Field : Field :=
  (((Field.init ⟨2, 2⟩).set ⟨0, 0⟩ .End).set ⟨1, 0⟩ .Left).set ⟨0, 1⟩ .Up

/-- C6, witness: with one free cell `(1,1)` the scan returns it for the
concrete offset `(1,1)` (and the returned cell is free and in bounds). -/
theorem c6_witness :
    (∃ c, c6Field.random_available ⟨1, 1⟩ = some c ∧ c6Field.available c ∧
      inGrid c6Field.dimension.x c6Field.dimension.y c) ∧
    c6Field.random_available ⟨1, 1⟩ = some ⟨1, 1⟩ := by
  have h := c6_random_free_cell c6Field ⟨1, 1⟩ (by norm_num) (by norm_num)
  constructor
  · exact h.1 ⟨⟨1, 1⟩, by decide, by decide⟩
  · refine h.2.2 ⟨1, 1⟩ (by decide) (by decide) ?_
    intro c hg hav
    obtain ⟨cx, cy⟩ := c
    obtain ⟨h1, h2, h3, h4⟩ := hg
    simp only [c6Field, Field.dimension_set, Field.dimension_init] at h1 h2 h3 h4
    have hx : cx = 0 ∨ cx = 1 := by omega
    have hy : cy = 0 ∨ cy = 1 := by omega
    rcases hx with rfl | rfl <;> rcases hy with rfl | rfl <;>
      first | rfl | exact absurd hav (by decide)

/-! ## The snake-body chain invariant -/

theorem move_towards_end (c : Coordinate) : c.move_towards .End = c := rfl

theorem move_towards_invert (c : Coordinate) (dir : Direction) :
    (c.move_towards dir).move_towards dir.invert = c := by
  cases c
  cases dir <;> simp [Coordinate.move_towards, Direction.invert]

theorem move_towards_ne_self (c : Coordinate) (dir : Direction) (h : dir.valid = true) :
    c.move_towards dir ≠ c := by
  cases c
  cases dir <;> simp_all [Coordinate.move_towards, Direction.valid]

theorem invert_ne_null (dir : Direction) (h : dir.valid = true) : dir.invert ≠ .Null := by
  cases dir <;> simp_all [Direction.invert, Direction.valid]

/-- The structural invariant of the `Field`: the chain traced from the head by
repeated `next()` stays in the grid, visits each cell at most once, holds
`Terminator` exactly at its last index `k`, and a cell of the grid is occupied
(non-`Empty`) precisely when it lies on the chain. -/
def ChainInv (f : Field) (head : Coordinate) (k : Nat) : Prop :=
  (∀ i, i ≤ k → inGrid f.dimension.x f.dimension.y (chainCell f head i)) ∧
  (∀ i j, i ≤ k → j ≤ k → chainCell f head i = chainCell f head j → i = j) ∧
  f.get (chainCell f head k) = .End ∧
  (∀ p, inGrid f.dimension.x f.dimension.y p →
    (¬ f.available p ↔ ∃ i, i ≤ k ∧ chainCell f head i = p))

theorem chainInv_get_ne_end (f : Field) (head : Coordinate) (k : Nat)
    (inv : ChainInv f head k) : ∀ i, i < k → f.get (chainCell f head i) ≠ .End := by
  obtain ⟨_, hinj, _, _⟩ := inv
  intro i hi hc
  have hnext : chainCell f head (i + 1) = chainCell f head i := by
    rw [chainCell_succ, Field.next, hc, move_towards_end]
  have := hinj (i + 1) i (by omega) (by omega) hnext
  omega

/-- Two fields that agree (as `get`) on the first `k` cells of a chain
produce the same chain up to index `k`. -/
theorem chainCell_congr (f1 f : Field) (head : Coordinate) (k : Nat)
    (hagree : ∀ i, i < k → f1.get (chainCell f head i) = f.get (chainCell f head i)) :
    ∀ i, i ≤ k → chainCell f1 head i = chainCell f head i := by
  intro i
  induction i with
  | zero => intro _; rfl
  | succ n ih =>
      intro h
      rw [chainCell_succ, chainCell_succ, ih (by omega), Field.next, Field.next,
        hagree n (by omega)]

/-- Advancing the head into a fresh free cell `cand` extends the chain
invariant by one: the new chain is `cand` followed by the old chain. -/
theorem chainInv_set_head (f : Field) (head cand : Coordinate) (dir : Direction) (k : Nat)
    (wf : f.WF) (inv : ChainInv f head k) (hdir : dir.valid = true)
    (hcand : cand = head.move_towards dir)
    (hgc : inGrid f.dimension.x f.dimension.y cand)
    (hav : f.available cand) :
    ChainInv (f.set cand dir.invert) cand (k + 1) := by
  obtain ⟨hgrid, hinj, hEnd, hocc⟩ := inv
  have hnotchain : ∀ i, i ≤ k → chainCell f head i ≠ cand := by
    intro i hi hc
    have hocc_i : ¬ f.available (chainCell f head i) :=
      (hocc _ (hgrid i hi)).mpr ⟨i, hi, rfl⟩
    rw [hc] at hocc_i
    exact hocc_i hav
  have hget1 : ∀ p, inGrid f.dimension.x f.dimension.y p → p ≠ cand →
      (f.set cand dir.invert).get p = f.get p := fun p hp hne =>
    Field.get_set_ne f cand p dir.invert wf hgc hp hne
  have hchain1 : chainCell (f.set cand dir.invert) cand 1 = head := by
    show (f.set cand dir.invert).next cand = head
    rw [Field.next, Field.get_set_self f cand dir.invert wf hgc, hcand,
      move_towards_invert]
  have hshift : ∀ i, i ≤ k → chainCell (f.set cand dir.invert) cand (i + 1) =
      chainCell f head i := by
    intro i hi
    have : chainCell (f.set cand dir.invert) cand (i + 1) =
        chainCell (f.set cand dir.invert) head i := by
      unfold chainCell
      rw [Function.iterate_succ_apply]
      have hc1 : (f.set cand dir.invert).next cand = head := hchain1
      rw [hc1]
    rw [this]
    exact chainCell_congr (f.set cand dir.invert) f head k
      (fun j hj => hget1 _ (hgrid j (by omega)) (hnotchain j (by omega))) i hi
  refine ⟨?_, ?_, ?_, ?_⟩
  · intro i hi
    cases i with
    | zero => exact hgc
    | succ n => rw [hshift n (by omega)]; exact hgrid n (by omega)
  · intro i j hi hj hij
    cases i with
    | zero =>
        cases j with
        | zero => rfl
        | succ n =>
            rw [chainCell_zero, hshift n (by omega)] at hij
            exact absurd hij.symm (hnotchain n (by omega))
    | succ m =>
        cases j with
        | zero =>
            rw [chainCell_zero, hshift m (by omega)] at hij
            exact absurd hij (hnotchain m (by omega))
        | succ n =>
            rw [hshift m (by omega), hshift n (by omega)] at hij
            have := hinj m n (by omega) (by omega) hij
            omega
  · rw [hshift k (by omega)]
    rw [hget1 _ (hgrid k (by omega)) (hnotchain k (by omega))]
    exact hEnd
  · intro p hp
    by_cases hpc : p = cand
    · subst hpc
      constructor
      · intro _
        exact ⟨0, by omega, rfl⟩
      · intro _
        unfold Field.available
        rw [Field.get_set_self f p dir.invert wf hgc]
        exact invert_ne_null dir hdir
    · have hgp : (f.set cand dir.invert).get p = f.get p := hget1 p hp hpc
      unfold Field.available
      rw [hgp]
      rw [show (¬ f.get p = .Null) = ¬ f.available p from rfl]
      rw [hocc p hp]
      constructor
      · rintro ⟨i, hi, rfl⟩
        exact ⟨i + 1, by omega, hshift i hi⟩
      · rintro ⟨i, hi, hci⟩
        cases i with
        | zero =>
            rw [chainCell_zero] at hci
            exact absurd hci.symm hpc
        | succ n =>
            rw [hshift n (by omega)] at hci
            exact ⟨n, by omega, hci⟩

/-- Dropping the tail preserves the chain invariant: after `drop_last`
rewrites cells `k-1` (to `End`) and `k` (to `Null`), the chain from the same
head satisfies the invariant with length `k - 1`. -/
theorem chainInv_drop (f : Field) (head : Coordinate) (k : Nat)
    (wf : f.WF) (inv : ChainInv f head k) (hk : 1 ≤ k) :
    ChainInv ((f.set (chainCell f head (k - 1)) .End).set (chainCell f head k) .Null)
      head (k - 1) := by
  obtain ⟨hgrid, hinj, hEnd, hocc⟩ := inv
  have hab : chainCell f head k ≠ chainCell f head (k - 1) := by
    intro hc
    have := hinj k (k - 1) (by omega) (by omega) hc
    omega
  have wf1 : (f.set (chainCell f head (k - 1)) .End).WF := Field.WF.set f wf _ _
  have hga : ((f.set (chainCell f head (k - 1)) .End).set (chainCell f head k) .Null).get
      (chainCell f head (k - 1)) = .End := by
    rw [Field.get_set_ne _ _ _ _ wf1 (hgrid k (by omega)) (hgrid (k - 1) (by omega))
      (Ne.symm hab)]
    exact Field.get_set_self f _ _ wf (hgrid (k - 1) (by omega))
  have hgb : ((f.set (chainCell f head (k - 1)) .End).set (chainCell f head k) .Null).get
      (chainCell f head k) = .Null :=
    Field.get_set_self _ _ _ wf1 (hgrid k (by omega))
  have hgother : ∀ p, inGrid f.dimension.x f.dimension.y p →
      p ≠ chainCell f head (k - 1) → p ≠ chainCell f head k →
      ((f.set (chainCell f head (k - 1)) .End).set (chainCell f head k) .Null).get p =
        f.get p := by
    intro p hp h1 h2
    rw [Field.get_set_ne _ _ _ _ wf1 (hgrid k (by omega)) hp h2]
    exact Field.get_set_ne f _ _ _ wf (hgrid (k - 1) (by omega)) hp h1
  have hchain : ∀ i, i ≤ k - 1 →
      chainCell ((f.set (chainCell f head (k - 1)) .End).set (chainCell f head k) .Null)
        head i = chainCell f head i := by
    refine chainCell_congr _ f head (k - 1) ?_
    intro i hi
    refine hgother _ (hgrid i (by omega)) ?_ ?_
    · intro hc
      have := hinj i (k - 1) (by omega) (by omega) hc
      omega
    · intro hc
      have := hinj i k (by omega) (by omega) hc
      omega
  refine ⟨?_, ?_, ?_, ?_⟩
  · intro i hi
    rw [hchain i hi]
    exact hgrid i (by omega)
  · intro i j hi hj hij
    rw [hchain i hi, hchain j hj] at hij
    exact hinj i j (by omega) (by omega) hij
  · rw [hchain (k - 1) (by omega)]
    exact hga
  · intro p hp
    by_cases hpb : p = chainCell f head k
    · subst hpb
      constructor
      · intro hno
        exact absurd hgb hno
      · rintro ⟨i, hi, hci⟩
        rw [hchain i hi] at hci
        have := hinj i k (by omega) (by omega) hci
        omega
    · by_cases hpa : p = chainCell f head (k - 1)
      · subst hpa
        constructor
        · intro _
          exact ⟨k - 1, by omega, hchain (k - 1) (by omega)⟩
        · intro _
          unfold Field.available
          rw [hga]
          simp
      · unfold Field.available
        rw [hgother p hp hpa hpb]
        rw [show (¬ f.get p = .Null) = ¬ f.available p from rfl]
        rw [hocc p hp]
        constructor
        · rintro ⟨i, hi, hci⟩
          have hik : i ≠ k := by
            intro hc
            exact hpb (hc ▸ hci).symm
          refine ⟨i, by omega, ?_⟩
          rw [hchain i (by omega)]
          exact hci
        · rintro ⟨i, hi, hci⟩
          rw [hchain i hi] at hci
          exact ⟨i, by omega, hci⟩

/-- A successful `drop_last` on a chain whose first `End` is at index `m`
returns the canonical result (whatever fuel it was run with). -/
theorem drop_last_some_eq (f : Field) (s : Coordinate) (m fuel : Nat)
    (hm : 1 ≤ m)
    (hne : ∀ j, 1 ≤ j → j < m → f.get (chainCell f s j) ≠ .End)
    (hEnd : f.get (chainCell f s m) = .End)
    (res : Field × Coordinate)
    (h : f.drop_last s fuel = some res) :
    res = ((f.set (chainCell f s (m - 1)) .End).set (chainCell f s m) .Null,
      chainCell f s m) := by
  have hbound : ∀ (n i : Nat) (r : Field × Coordinate), i + 1 ≤ m →
      f.dropLastGo (chainCell f s i) (chainCell f s (i + 1)) n = some r → m ≤ i + n := by
    intro n
    induction n with
    | zero => intro i r _ hc; cases hc
    | succ n ih =>
        intro i r hi hc
        by_cases him : i + 1 = m
        · omega
        · rw [Field.dropLastGo, if_neg (hne (i + 1) (by omega) (by omega)),
            ← chainCell_succ] at hc
          have := ih (i + 1) r (by omega) hc
          omega
  have hfuel : m ≤ fuel := by
    have h0 : f.dropLastGo (chainCell f s 0) (chainCell f s 1) fuel = some res := h
    have := hbound fuel 0 res (by omega) h0
    omega
  have := drop_last_spec f s m fuel hm hfuel hne hEnd
  rw [this] at h
  exact (Option.some.inj h).symm

/-! ## Counting: a chain fits in the grid -/

/-- The finite set of coordinates of a `w` by `h` grid. -/
def gridFinset (w h : Int) : Finset Coordinate :=
  ((Finset.Ico 0 w) ×ˢ (Finset.Ico 0 h)).image fun p => ⟨p.1, p.2⟩

theorem mem_gridFinset (w h : Int) (c : Coordinate) :
    c ∈ gridFinset w h ↔ inGrid w h c := by
  unfold gridFinset inGrid
  simp only [Finset.mem_image, Finset.mem_product, Finset.mem_Ico]
  constructor
  · rintro ⟨⟨a, b⟩, ⟨⟨h1, h2⟩, h3, h4⟩, rfl⟩
    exact ⟨h1, h3, h2, h4⟩
  · rintro ⟨h1, h2, h3, h4⟩
    exact ⟨(c.x, c.y), ⟨⟨h1, h3⟩, h2, h4⟩, rfl⟩

theorem card_gridFinset (w h : Int) :
    (gridFinset w h).card = w.toNat * h.toNat := by
  unfold gridFinset
  rw [Finset.card_image_of_injective _
    (fun p q hpq => by
      cases p
      cases q
      simpa [Prod.ext_iff] using hpq)]
  rw [Finset.card_product, Int.card_Ico, Int.card_Ico, sub_zero, sub_zero]

theorem chainInv_bound (f : Field) (head : Coordinate) (k : Nat)
    (inv : ChainInv f head k) : k < f.dimension.x.toNat * f.dimension.y.toNat := by
  obtain ⟨hgrid, hinj, _, _⟩ := inv
  have hcard := Finset.card_le_card_of_injOn (fun i => chainCell f head i)
    (fun i hi => by
      rw [mem_gridFinset]
      exact hgrid i (by simpa [Nat.lt_succ_iff] using Finset.mem_range.mp hi))
    (fun i hi j hj hij =>
      hinj i j (by simpa [Nat.lt_succ_iff] using Finset.mem_range.mp hi)
        (by simpa [Nat.lt_succ_iff] using Finset.mem_range.mp hj) hij)
    (s := Finset.range (k + 1)) (t := gridFinset f.dimension.x f.dimension.y)
  rw [Finset.card_range, card_gridFinset] at hcard
  omega

/-! ## The initial field -/

theorem get_init (d : Coordinate) (p : Coordinate) : (Field.init d).get p = .Null := by
  unfold Field.init Field.get
  dsimp only
  by_cases hy : p.y.toNat < d.y.toNat
  · have hrow : (List.replicate d.y.toNat (List.replicate d.x.toNat Direction.Null)).getD
        p.y.toNat [] = List.replicate d.x.toNat Direction.Null := by
      rw [List.getD_eq_getElem _ _ (by simpa using hy), List.getElem_replicate]
    rw [hrow]
    by_cases hx : p.x.toNat < d.x.toNat
    · rw [List.getD_eq_getElem _ _ (by simpa using hx), List.getElem_replicate]
    · rw [List.getD_eq_default _ _ (by simp only [List.length_replicate]; omega)]
  · have hrow : (List.replicate d.y.toNat (List.replicate d.x.toNat Direction.Null)).getD
        p.y.toNat [] = [] := by
      rw [List.getD_eq_default _ _ (by simp only [List.length_replicate]; omega)]
    rw [hrow]
    rfl

theorem WF_init (d : Coordinate) (hx : 0 < d.x) (hy : 0 < d.y) : (Field.init d).WF := by
  refine ⟨hx, hy, by simp [Field.init], ?_⟩
  intro i hi
  simp only [Field.init, List.length_replicate] at hi ⊢
  rw [List.getD_eq_getElem _ _ (by simpa using hi), List.getElem_replicate,
    List.length_replicate]

/-! ## Reachable game states -/

/-- Game states reachable from `Game::init` (with the randomly drawn head
and apple offsets passed explicitly) by ticks of the game loop that report
`Continued`. -/
inductive Reachable : Game → Prop where
  | init (w h : Int) (head r apple : Coordinate) :
      inGrid w h head →
      ((Field.init ⟨w, h⟩).set head .End).random_available r = some apple →
      Reachable ⟨head, apple, (Field.init ⟨w, h⟩).set head .End, 0, 0⟩
  | step (g : Game) (dir : Direction) (r : Coordinate) (fuel : Nat) (g' : Game) :
      Reachable g → g.step (some dir) r fuel = some (.Continued, g') → Reachable g'

/-- One `Continued` tick preserves well-formedness, the grid dimension and
the chain invariant. -/
theorem step_preserves (g : Game) (dir : Direction) (r : Coordinate) (fuel : Nat) (g' : Game)
    (hstep : g.step (some dir) r fuel = some (.Continued, g'))
    (wf : g.field.WF) (k : Nat) (inv : ChainInv g.field g.head k) :
    g'.field.WF ∧ g'.field.dimension = g.field.dimension ∧
      ∃ k', ChainInv g'.field g'.head k' := by
  simp only [Game.step] at hstep
  split at hstep
  · simp at hstep
  · rename_i hvalid
    have hdir : dir.valid = true := by
      by_contra hc
      exact hvalid (by simpa using hc)
    split at hstep
    · simp at hstep
    · rename_i hbound
      have hgc : inGrid g.field.dimension.x g.field.dimension.y
          (g.head.move_towards dir) := (valid_iff_inGrid _ _).mp (not_not.mp hbound)
      split at hstep
      · -- the candidate cell does not hold End
        rename_i hnotend
        split at hstep
        · simp at hstep
        · rename_i hav'
          have hav : g.field.available (g.head.move_towards dir) := not_not.mp hav'
          have inv1 := chainInv_set_head g.field g.head (g.head.move_towards dir) dir k
            wf inv hdir rfl hgc hav
          have wf1 : (g.field.set (g.head.move_towards dir) dir.invert).WF :=
            Field.WF.set g.field wf _ _
          split at hstep
          · -- ate the apple
            split at hstep
            · simp at hstep
            · rename_i ap hap
              simp only [Option.some.injEq, Prod.mk.injEq, true_and] at hstep
              subst hstep
              exact ⟨wf1, rfl, k + 1, inv1⟩
          · -- no apple: drop the tail
            split at hstep
            · simp at hstep
            · rename_i pair f2 d hdrop
              simp only [Option.some.injEq, Prod.mk.injEq, true_and] at hstep
              subst hstep
              have hEnd1 := inv1.2.2.1
              have hne1 : ∀ j, 1 ≤ j → j < k + 1 →
                  (g.field.set (g.head.move_towards dir) dir.invert).get
                    (chainCell (g.field.set (g.head.move_towards dir) dir.invert)
                      (g.head.move_towards dir) j) ≠ .End :=
                fun j _ h2 => chainInv_get_ne_end _ _ _ inv1 j h2
              have heq2 := drop_last_some_eq
                (g.field.set (g.head.move_towards dir) dir.invert)
                (g.head.move_towards dir) (k + 1) fuel (by omega) hne1 hEnd1 (f2, d) hdrop
              have hf2 : f2 = ((g.field.set (g.head.move_towards dir) dir.invert).set
                  (chainCell (g.field.set (g.head.move_towards dir) dir.invert)
                    (g.head.move_towards dir) k) .End).set
                  (chainCell (g.field.set (g.head.move_towards dir) dir.invert)
                    (g.head.move_towards dir) (k + 1)) .Null :=
                congrArg Prod.fst heq2
              subst hf2
              refine ⟨Field.WF.set _ (Field.WF.set _ wf1 _ _) _ _, rfl, k, ?_⟩
              exact chainInv_drop _ _ (k + 1) wf1 inv1 (by omega)
      · -- corner case: the candidate cell holds End
        rename_i hnotend
        have hgetEnd : g.field.get (g.head.move_towards dir) = .End := not_not.mp hnotend
        split at hstep
        · simp at hstep
        · rename_i pair f2 d hdrop
          simp only [Option.some.injEq, Prod.mk.injEq, true_and] at hstep
          subst hstep
          have hocc_c : ¬ g.field.available (g.head.move_towards dir) := by
            unfold Field.available
            rw [hgetEnd]
            simp
          obtain ⟨i, hi, hci⟩ := (inv.2.2.2 _ hgc).mp hocc_c
          have hik : i = k := by
            by_contra hc
            exact chainInv_get_ne_end _ _ _ inv i (by omega) (by rw [hci]; exact hgetEnd)
          rw [hik] at hci
          have hk1 : 1 ≤ k := by
            by_contra hc
            have h0 : k = 0 := by omega
            rw [h0, chainCell_zero] at hci
            exact move_towards_ne_self g.head dir hdir hci.symm
          have hne : ∀ j, 1 ≤ j → j < k → g.field.get (chainCell g.field g.head j) ≠ .End :=
            fun j _ h2 => chainInv_get_ne_end _ _ _ inv j h2
          have heq2 := drop_last_some_eq g.field g.head k fuel hk1 hne inv.2.2.1 (f2, d) hdrop
          have hf2 : f2 = (g.field.set (chainCell g.field g.head (k - 1)) .End).set
              (chainCell g.field g.head k) .Null := congrArg Prod.fst heq2
          subst hf2
          have wfa : (g.field.set (chainCell g.field g.head (k - 1)) .End).WF :=
            Field.WF.set g.field wf _ _
          have wf2 : ((g.field.set (chainCell g.field g.head (k - 1)) .End).set
              (chainCell g.field g.head k) .Null).WF := Field.WF.set _ wfa _ _
          have inv2 := chainInv_drop g.field g.head k wf inv hk1
          have hav2 : ((g.field.set (chainCell g.field g.head (k - 1)) .End).set
              (chainCell g.field g.head k) .Null).available (g.head.move_towards dir) := by
            unfold Field.available
            rw [← hci]
            exact Field.get_set_self _ _ _ wfa (inv.1 k (by omega))
          refine ⟨Field.WF.set _ wf2 _ _, rfl, (k - 1) + 1, ?_⟩
          exact chainInv_set_head _ g.head (g.head.move_towards dir) dir (k - 1)
            wf2 inv2 hdir rfl hgc hav2

/-- Every reachable state is well-formed and satisfies the chain invariant. -/
theorem reachable_inv : ∀ g : Game, Reachable g →
    g.field.WF ∧ ∃ k, ChainInv g.field g.head k := by
  intro g h
  induction h with
  | init w h head r apple hg hap =>
      obtain ⟨hx0, hy0, hxw, hyh⟩ := hg
      have wf0 : (Field.init ⟨w, h⟩).WF :=
        WF_init ⟨w, h⟩ (by show (0 : Int) < w; omega) (by show (0 : Int) < h; omega)
      have wf1 : ((Field.init ⟨w, h⟩).set head .End).WF := Field.WF.set _ wf0 _ _
      refine ⟨wf1, 0, ?_, ?_, ?_, ?_⟩
      · intro i hi
        have h0 : i = 0 := by omega
        subst h0
        exact ⟨hx0, hy0, hxw, hyh⟩
      · intro i j hi hj _
        omega
      · exact Field.get_set_self _ _ _ wf0 ⟨hx0, hy0, hxw, hyh⟩
      · intro p hp
        by_cases hph : p = head
        · subst hph
          constructor
          · intro _
            exact ⟨0, by omega, rfl⟩
          · intro _
            unfold Field.available
            rw [Field.get_set_self _ _ _ wf0 ⟨hx0, hy0, hxw, hyh⟩]
            simp
        · have : ((Field.init ⟨w, h⟩).set head .End).get p = (Field.init ⟨w, h⟩).get p :=
            Field.get_set_ne _ _ _ _ wf0 ⟨hx0, hy0, hxw, hyh⟩ hp hph
          constructor
          · intro hno
            exfalso
            apply hno
            unfold Field.available
            rw [this, get_init]
          · rintro ⟨i, hi, hci⟩
            have h0 : i = 0 := by omega
            subst h0
            rw [chainCell_zero] at hci
            exact absurd hci.symm hph
  | step g dir r fuel g' hre hstep ih =>
      obtain ⟨wf, k, inv⟩ := ih
      obtain ⟨wf', _, k', inv'⟩ := step_preserves g dir r fuel g' hstep wf k inv
      exact ⟨wf', k', inv'⟩

/-- C2.  In every game state reachable from `Game::init` by ticks that report
`Continued`, the set of field cells holding a movement or `Terminator` value,
traced from the head by repeated `next()`, stays in the grid, visits each
cell at most once, and reaches the cell holding `Terminator` at some index
`k < W*H` (no cycles, no branches: the occupied cells are exactly the chain
cells). -/
theorem c2_reachable_chain :
    ∀ g : Game, Reachable g →
      ∃ k, k < g.field.dimension.x.toNat * g.field.dimension.y.toNat ∧
        (∀ i, i ≤ k → inGrid g.field.dimension.x g.field.dimension.y
          (chainCell g.field g.head i)) ∧
        (∀ i j, i ≤ k → j ≤ k →
          chainCell g.field g.head i = chainCell g.field g.head j → i = j) ∧
        g.field.get (chainCell g.field g.head k) = .End ∧
        (∀ p, inGrid g.field.dimension.x g.field.dimension.y p →
          (¬ g.field.available p ↔ ∃ i, i ≤ k ∧ chainCell g.field g.head i = p)) := by
  intro g h
  obtain ⟨wf, k, inv⟩ := reachable_inv g h
  exact ⟨k, chainInv_bound g.field g.head k inv, inv⟩

/-- C2, witness: the initial 2 by 2 state with head `(0,0)` (apple placed by
the scan at `(1,0)`) is reachable, one `Down` tick from it is reachable too,
and the chain property is instantiated on the latter state. -/
theorem c2_witness :
    ∃ k, k < (Game.mk ⟨0, 1⟩ ⟨1, 0⟩ ⟨⟨2, 2⟩, [[.Null, .Null], [.End, .Null]]⟩ 0 1
        ).field.dimension.x.toNat *
        (Game.mk ⟨0, 1⟩ ⟨1, 0⟩ ⟨⟨2, 2⟩, [[.Null, .Null], [.End, .Null]]⟩ 0 1
        ).field.dimension.y.toNat ∧
      (∀ i, i ≤ k → inGrid 2 2
        (chainCell (⟨⟨2, 2⟩, [[.Null, .Null], [.End, .Null]]⟩ : Field) ⟨0, 1⟩ i)) ∧
      (∀ i j, i ≤ k → j ≤ k →
        chainCell (⟨⟨2, 2⟩, [[.Null, .Null], [.End, .Null]]⟩ : Field) ⟨0, 1⟩ i =
        chainCell (⟨⟨2, 2⟩, [[.Null, .Null], [.End, .Null]]⟩ : Field) ⟨0, 1⟩ j → i = j) ∧
      (⟨⟨2, 2⟩, [[.Null, .Null], [.End, .Null]]⟩ : Field).get
        (chainCell (⟨⟨2, 2⟩, [[.Null, .Null], [.End, .Null]]⟩ : Field) ⟨0, 1⟩ k) = .End ∧
      (∀ p, inGrid 2 2 p →
        (¬ (⟨⟨2, 2⟩, [[.Null, .Null], [.End, .Null]]⟩ : Field).available p ↔
          ∃ i, i ≤ k ∧
            chainCell (⟨⟨2, 2⟩, [[.Null, .Null], [.End, .Null]]⟩ : Field) ⟨0, 1⟩ i = p)) := by
  have hinit : Reachable ⟨⟨0, 0⟩, ⟨1, 0⟩, (Field.init ⟨2, 2⟩).set ⟨0, 0⟩ .End, 0, 0⟩ :=
    Reachable.init 2 2 ⟨0, 0⟩ ⟨0, 0⟩ ⟨1, 0⟩ (by decide) (by decide)
  have hstep : Reachable
      (Game.mk ⟨0, 1⟩ ⟨1, 0⟩ ⟨⟨2, 2⟩, [[.Null, .Null], [.End, .Null]]⟩ 0 1) :=
    Reachable.step _ .Down ⟨0, 0⟩ 4 _ hinit (by decide)
  exact c2_reachable_chain _ hstep

/-! ## C3: the self-follow corner case -/

/-- C3.  In every game state (well-formed, chain invariant) whose candidate
cell `head.move_towards(direction)` is in bounds and holds `Terminator`, the
tick does not report `AteSnake`: it reports `Continued`, having first dropped
the tail (`drop_last` from the current head, which returns exactly the
candidate cell and vacates it — the true tail cell reads `Empty` and the new
predecessor holds `Terminator`), then written `direction.invert()` into the
candidate and moved the head there; the apple/tail logic of steps 6-7 is
skipped: `apple` and `apples_eaten` are unchanged. -/
theorem c3_self_follow :
    ∀ (g : Game) (dir : Direction) (r : Coordinate) (fuel k : Nat),
      g.field.WF → ChainInv g.field g.head k → k ≤ fuel →
      dir.valid = true →
      g.field.valid (g.head.move_towards dir) →
      g.field.get (g.head.move_towards dir) = .End →
      ∃ f2,
        g.field.drop_last g.head fuel = some (f2, g.head.move_towards dir) ∧
        f2.get (g.head.move_towards dir) = .Null ∧
        f2.get (chainCell g.field g.head (k - 1)) = .End ∧
        g.step (some dir) r fuel =
          some (.Continued,
            ⟨g.head.move_towards dir, g.apple,
              f2.set (g.head.move_towards dir) dir.invert, g.apples, g.moves + 1⟩) := by
  intro g dir r fuel k wf inv hfuel hdir hvalid hgetEnd
  have hgc : inGrid g.field.dimension.x g.field.dimension.y (g.head.move_towards dir) :=
    (valid_iff_inGrid _ _).mp hvalid
  have hocc_c : ¬ g.field.available (g.head.move_towards dir) := by
    unfold Field.available
    rw [hgetEnd]
    simp
  obtain ⟨i, hi, hci⟩ := (inv.2.2.2 _ hgc).mp hocc_c
  have hik : i = k := by
    by_contra hc
    exact chainInv_get_ne_end _ _ _ inv i (by omega) (by rw [hci]; exact hgetEnd)
  rw [hik] at hci
  have hk1 : 1 ≤ k := by
    by_contra hc
    have h0 : k = 0 := by omega
    rw [h0, chainCell_zero] at hci
    exact move_towards_ne_self g.head dir hdir hci.symm
  have hne : ∀ j, 1 ≤ j → j < k → g.field.get (chainCell g.field g.head j) ≠ .End :=
    fun j _ h2 => chainInv_get_ne_end _ _ _ inv j h2
  have hdrop := drop_last_spec g.field g.head k fuel hk1 hfuel hne inv.2.2.1
  have wfa : (g.field.set (chainCell g.field g.head (k - 1)) .End).WF :=
    Field.WF.set g.field wf _ _
  have hab : chainCell g.field g.head k ≠ chainCell g.field g.head (k - 1) := by
    intro hc
    have := inv.2.1 k (k - 1) (by omega) (by omega) hc
    omega
  refine ⟨(g.field.set (chainCell g.field g.head (k - 1)) .End).set
      (chainCell g.field g.head k) .Null, ?_, ?_, ?_, ?_⟩
  · rw [hdrop, hci]
  · rw [← hci]
    exact Field.get_set_self _ _ _ wfa (inv.1 k (by omega))
  · rw [Field.get_set_ne _ _ _ _ wfa (inv.1 k (by omega)) (inv.1 (k - 1) (by omega))
      (Ne.symm hab)]
    exact Field.get_set_self _ _ _ wf (inv.1 (k - 1) (by omega))
  · simp only [Game.step]
    rw [if_neg (by simp [hdir])]
    rw [if_neg (not_not_intro hvalid)]
    rw [if_neg (not_not_intro hgetEnd)]
    rw [hdrop]

/-- The full-board snake on a 2 by 2 grid used by the C3 witness: the head at
`(0,0)` follows its own tail at distance zero. -/
def c3Field : Field := ⟨⟨2, 2⟩, [[.Right, .Down], [.End, .Left]]⟩

theorem c3Field_chainInv : ChainInv c3Field ⟨0, 0⟩ 3 := by
  have hinj : ∀ i j, i ≤ 3 → j ≤ 3 →
      chainCell c3Field ⟨0, 0⟩ i = chainCell c3Field ⟨0, 0⟩ j → i = j := by
    intro i j hi hj hij
    interval_cases i <;> interval_cases j <;> first | rfl | (exfalso; revert hij; decide)
  refine ⟨by decide, hinj, by decide, ?_⟩
  intro p hp
  obtain ⟨px, py⟩ := p
  have h1 : (0 : Int) ≤ px := hp.1
  have h2 : (0 : Int) ≤ py := hp.2.1
  have h3 : px < 2 := hp.2.2.1
  have h4 : py < 2 := hp.2.2.2
  have hx : px = 0 ∨ px = 1 := by omega
  have hy : py = 0 ∨ py = 1 := by omega
  rcases hx with rfl | rfl <;> rcases hy with rfl | rfl
  · exact ⟨fun _ => ⟨0, by omega, by decide⟩, fun _ => by decide⟩
  · exact ⟨fun _ => ⟨3, by omega, by decide⟩, fun _ => by decide⟩
  · exact ⟨fun _ => ⟨1, by omega, by decide⟩, fun _ => by decide⟩
  · exact ⟨fun _ => ⟨2, by omega, by decide⟩, fun _ => by decide⟩

/-- C3, witness: the concrete full-board self-follow step succeeds. -/
theorem c3_witness :
    ∃ f2,
      c3Field.drop_last ⟨0, 0⟩ 4 = some (f2, (Coordinate.mk 0 0).move_towards .Down) ∧
      f2.get ((Coordinate.mk 0 0).move_towards .Down) = .Null ∧
      f2.get (chainCell c3Field ⟨0, 0⟩ (3 - 1)) = .End ∧
      Game.step ⟨⟨0, 0⟩, ⟨0, 0⟩, c3Field, 0, 0⟩ (some .Down) ⟨0, 0⟩ 4 =
        some (.Continued,
          ⟨(Coordinate.mk 0 0).move_towards .Down, ⟨0, 0⟩,
            f2.set ((Coordinate.mk 0 0).move_towards .Down) Direction.Down.invert,
            0, 0 + 1⟩) :=
  c3_self_follow ⟨⟨0, 0⟩, ⟨0, 0⟩, c3Field, 0, 0⟩ .Down ⟨0, 0⟩ 4 3 (by decide)
    c3Field_chainInv (by omega) (by decide) (by decide) (by decide)

/-! ## C1: the Hamiltonian cycle -/

/-- One step of the Hamiltonian strategy: move one cell in the direction
`HamiltonianSnake::move_to` returns. -/
def hamStep (w h : Int) (apple : Coordinate) (c : Coordinate) : Coordinate :=
  c.move_towards (hamiltonianMove w h c apple)

/-- The length of the cycle the Hamiltonian rule traces: all `w*h` cells,
except on odd-by-odd grids, where the top-right corner is left out. -/
def hamPeriod (w h : Int) : Int :=
  if odd w ∧ odd h then w * h - 1 else w * h

/-- The cells on the Hamiltonian cycle: the whole grid, minus the top-right
corner `(w-1, 0)` when both dimensions are odd. -/
def inCycle (w h : Int) (c : Coordinate) : Prop :=
  inGrid w h c ∧ ¬(odd w = true ∧ odd h = true ∧ c = ⟨w - 1, 0⟩)

instance (w h : Int) (c : Coordinate) : Decidable (inCycle w h c) := by
  unfold inCycle
  infer_instance

/-- The position of a cell along the Hamiltonian cycle, as a closed form:
column 0 downward, then the serpentine over rows `1..h-1` (with the last two
columns weaving when `w` is odd), then row 0 leftward back to the origin. -/
def hamTime (w h : Int) (c : Coordinate) : Int :=
  if c.y = 0 then (if c.x = 0 then 0 else hamPeriod w h - c.x)
  else if c.x = 0 then c.y
  else if odd w = true ∧ (c.x = w - 2 ∨ c.x = w - 1) then
    h + (w - 3) * (h - 1) + 2 * (h - 1 - c.y) +
      (if ((c.x = w - 1) ↔ odd (h - c.y) = true) then 1 else 0)
  else h + (c.x - 1) * (h - 1) + (if odd c.x = true then h - 1 - c.y else c.y - 1)

/-- C1, counterexample.  On the 5 by 5 grid (odd by odd) with the apple off
row 0, the orbit of the Hamiltonian rule from `(0,0)` returns to `(0,0)`
after only 24 steps, so it cannot visit all `25` cells exactly once before
returning; indeed the top-right corner `(4,0)` is never visited at all. -/
theorem c1_counterexample :
    (hamStep 5 5 ⟨0, 1⟩)^[24] ⟨0, 0⟩ = ⟨0, 0⟩ ∧
    ¬ (∀ i j : Nat, i < j → j < 25 →
        (hamStep 5 5 ⟨0, 1⟩)^[i] ⟨0, 0⟩ ≠ (hamStep 5 5 ⟨0, 1⟩)^[j] ⟨0, 0⟩) ∧
    (∀ i : Nat, i < 25 → (hamStep 5 5 ⟨0, 1⟩)^[i] ⟨0, 0⟩ ≠ ⟨4, 0⟩) := by
  refine ⟨by decide, ?_, by decide⟩
  intro hc
  exact absurd (by decide :
    (hamStep 5 5 ⟨0, 1⟩)^[0] ⟨0, 0⟩ = (hamStep 5 5 ⟨0, 1⟩)^[24] ⟨0, 0⟩)
    (hc 0 24 (by omega) (by omega))

theorem hamStep_inCycle (w h : Int) (apple : Coordinate) (x y : Int)
    (hw : 2 ≤ w) (hh : 2 ≤ h) (hap : apple.y ≠ 0)
    (hx0 : 0 ≤ x) (hy0 : 0 ≤ y) (hxw : x < w) (hyh : y < h)
    (hcor : ¬(w % 2 = 1 ∧ h % 2 = 1 ∧ x = w - 1 ∧ y = 0)) :
    inCycle w h (hamStep w h apple ⟨x, y⟩) := by
  simp only [hamStep, hamiltonianMove]
  split_ifs <;>
    simp only [Coordinate.move_towards, inCycle, inGrid, Coordinate.mk.injEq,
      odd_eq_true_iff, odd_eq_false_iff] at * <;>
    omega

set_option maxHeartbeats 2000000 in
theorem hamTime_succ (w h : Int) (apple : Coordinate) (x y : Int)
    (hw : 2 ≤ w) (hh : 2 ≤ h) (hap : apple.y ≠ 0)
    (hx0 : 0 ≤ x) (hy0 : 0 ≤ y) (hxw : x < w) (hyh : y < h)
    (hcor : ¬(w % 2 = 1 ∧ h % 2 = 1 ∧ x = w - 1 ∧ y = 0))
    (hwrap : ¬(x = 1 ∧ y = 0)) :
    hamTime w h (hamStep w h apple ⟨x, y⟩) = hamTime w h ⟨x, y⟩ + 1 := by
  simp only [hamStep, hamiltonianMove]
  split_ifs <;>
    simp only [Coordinate.move_towards, hamTime, hamPeriod, Coordinate.mk.injEq,
      odd_eq_true_iff, odd_eq_false_iff] at * <;>
    split_ifs <;>
    first
      | omega
      | (try ((have hx1 : x = w - 1 := (by omega)); subst hx1);
         try ((have hx2 : x = w - 2 := (by omega)); subst hx2);
         try ((have hy1 : y = 1 := (by omega)); subst hy1);
         try ((have hyh1 : y = h - 1 := (by omega)); subst hyh1);
         try ((have hx3 : x = w - 3 := (by omega)); subst hx3);
         try ((have hx00 : x = 0 := (by omega)); subst hx00);
         try ((have hw3 : w = 3 := (by omega)); subst hw3);
         first
           | omega
           | ring)

theorem hamTime_origin (w h : Int) : hamTime w h ⟨0, 0⟩ = 0 := by
  simp [hamTime]

theorem hamTime_wrapcell (w h : Int) : hamTime w h ⟨1, 0⟩ = hamPeriod w h - 1 := by
  norm_num [hamTime]

theorem hamStep_wrap (w h : Int) (apple : Coordinate) :
    hamStep w h apple ⟨1, 0⟩ = ⟨0, 0⟩ := by
  norm_num [hamStep, hamiltonianMove, Coordinate.move_towards]

/-- Only the cell `(1, 0)` (the last cell of the return row) carries the
final time value `hamPeriod - 1`. -/
theorem hamTime_top (w h x y : Int) (hw : 2 ≤ w) (hh : 2 ≤ h)
    (hx0 : 0 ≤ x) (hy0 : 0 ≤ y) (hxw : x < w) (hyh : y < h)
    (htop : hamTime w h ⟨x, y⟩ = hamPeriod w h - 1) :
    x = 1 ∧ y = 0 := by
  have h2h : 2 * h ≤ w * h := mul_le_mul_of_nonneg_right hw (by omega)
  have hserp : (x - 1) * (h - 1) ≤ (w - 2) * (h - 1) :=
    mul_le_mul_of_nonneg_right (by omega) (by omega)
  simp only [hamTime, hamPeriod, odd_eq_true_iff] at htop
  split_ifs at htop <;>
    first
      | omega
      | (constructor <;> linarith)
      | (exfalso;
         try ((have hw3 : 3 ≤ w := (by omega)));
         try ((have hh3 : 3 ≤ h := (by omega)));
         try ((have hy1p : 1 ≤ y := (by omega)));
         try ((have hx1p : 1 ≤ x := (by omega)));
         linarith)

theorem inCycle_arith (w h x y : Int) :
    inCycle w h ⟨x, y⟩ ↔
      (0 ≤ x ∧ 0 ≤ y ∧ x < w ∧ y < h) ∧
        ¬(w % 2 = 1 ∧ h % 2 = 1 ∧ x = w - 1 ∧ y = 0) := by
  unfold inCycle inGrid
  simp [Coordinate.mk.injEq, odd_eq_true_iff, and_assoc]

theorem hamStep_inCycle_mk (w h : Int) (apple c : Coordinate)
    (hw : 2 ≤ w) (hh : 2 ≤ h) (hap : apple.y ≠ 0) (hc : inCycle w h c) :
    inCycle w h (hamStep w h apple c) := by
  obtain ⟨x, y⟩ := c
  rw [inCycle_arith] at hc
  exact hamStep_inCycle w h apple x y hw hh hap hc.1.1 hc.1.2.1 hc.1.2.2.1 hc.1.2.2.2 hc.2

theorem hamTime_succ_mk (w h : Int) (apple c : Coordinate)
    (hw : 2 ≤ w) (hh : 2 ≤ h) (hap : apple.y ≠ 0) (hc : inCycle w h c)
    (hwrap : c ≠ ⟨1, 0⟩) :
    hamTime w h (hamStep w h apple c) = hamTime w h c + 1 := by
  obtain ⟨x, y⟩ := c
  rw [inCycle_arith] at hc
  exact hamTime_succ w h apple x y hw hh hap hc.1.1 hc.1.2.1 hc.1.2.2.1 hc.1.2.2.2 hc.2
    (by simpa [Coordinate.mk.injEq] using hwrap)

theorem hamTime_top_mk (w h : Int) (c : Coordinate) (hw : 2 ≤ w) (hh : 2 ≤ h)
    (hc : inCycle w h c) (htop : hamTime w h c = hamPeriod w h - 1) :
    c = ⟨1, 0⟩ := by
  obtain ⟨x, y⟩ := c
  rw [inCycle_arith] at hc
  obtain ⟨h1, h2⟩ := hamTime_top w h x y hw hh hc.1.1 hc.1.2.1 hc.1.2.2.1 hc.1.2.2.2 htop
  simp [h1, h2]

theorem hamPeriod_ge (w h : Int) (hw : 2 ≤ w) (hh : 2 ≤ h) :
    3 ≤ hamPeriod w h := by
  have h4 : 4 ≤ w * h := by
    have := mul_le_mul hw hh (by norm_num) (by omega : (0 : Int) ≤ w)
    linarith
  unfold hamPeriod
  split_ifs <;> linarith

/-- Along the orbit of `(0,0)`, the `t`-th cell is on the cycle and carries
time value `t`, for `t` below the period. -/
theorem hamOrbit (w h : Int) (apple : Coordinate)
    (hw : 2 ≤ w) (hh : 2 ≤ h) (hap : apple.y ≠ 0) :
    ∀ t : Nat, t < (hamPeriod w h).toNat →
      inCycle w h ((hamStep w h apple)^[t] ⟨0, 0⟩) ∧
      hamTime w h ((hamStep w h apple)^[t] ⟨0, 0⟩) = (t : Int) := by
  intro t
  induction t with
  | zero =>
      intro _
      simp only [Function.iterate_zero_apply]
      refine ⟨?_, by simpa using hamTime_origin w h⟩
      rw [inCycle_arith]
      omega
  | succ t ih =>
      intro ht
      have hNge := hamPeriod_ge w h hw hh
      obtain ⟨hcyc, htime⟩ := ih (by omega)
      have hwrap : (hamStep w h apple)^[t] ⟨0, 0⟩ ≠ ⟨1, 0⟩ := by
        intro hcc
        rw [hcc, hamTime_wrapcell] at htime
        have hlt : (t : Int) < (hamPeriod w h).toNat - 1 := by
          omega
        omega
      constructor
      · rw [Function.iterate_succ_apply']
        exact hamStep_inCycle_mk w h apple _ hw hh hap hcyc
      · rw [Function.iterate_succ_apply',
          hamTime_succ_mk w h apple _ hw hh hap hcyc hwrap, htime]
        push_cast
        ring

/-- The orbit of `(0,0)` closes after exactly `hamPeriod` steps. -/
theorem hamClosure (w h : Int) (apple : Coordinate)
    (hw : 2 ≤ w) (hh : 2 ≤ h) (hap : apple.y ≠ 0) :
    (hamStep w h apple)^[(hamPeriod w h).toNat] ⟨0, 0⟩ = ⟨0, 0⟩ := by
  have hNge := hamPeriod_ge w h hw hh
  obtain ⟨hcyc, htime⟩ := hamOrbit w h apple hw hh hap ((hamPeriod w h).toNat - 1)
    (by omega)
  have htop : (hamStep w h apple)^[(hamPeriod w h).toNat - 1] ⟨0, 0⟩ = ⟨1, 0⟩ := by
    refine hamTime_top_mk w h _ hw hh hcyc ?_
    rw [htime]
    omega
  rw [show (hamPeriod w h).toNat = ((hamPeriod w h).toNat - 1) + 1 from by omega,
    Function.iterate_succ_apply', htop]
  exact hamStep_wrap w h apple

theorem iterate_eq_mod {α : Type} (f : α → α) (z : α) (n : Nat) (hn : 0 < n)
    (hz : f^[n] z = z) : ∀ t, f^[t] z = f^[t % n] z := by
  intro t
  induction t using Nat.strong_induction_on with
  | _ t ih =>
      by_cases hlt : t < n
      · rw [Nat.mod_eq_of_lt hlt]
      · have h1 : t = (t - n) + n := by omega
        rw [h1, Function.iterate_add_apply, hz, ih (t - n) (by omega)]
        rw [Nat.add_mod_right]

/-- The finite set of cells on the Hamiltonian cycle. -/
def cycleFinset (w h : Int) : Finset Coordinate :=
  (gridFinset w h).filter fun c => inCycle w h c

theorem mem_cycleFinset (w h : Int) (c : Coordinate) :
    c ∈ cycleFinset w h ↔ inCycle w h c := by
  unfold cycleFinset
  rw [Finset.mem_filter, mem_gridFinset]
  exact ⟨fun hc => hc.2, fun hc => ⟨hc.1, hc⟩⟩

theorem card_cycleFinset (w h : Int) (hw : 2 ≤ w) (hh : 2 ≤ h) :
    (cycleFinset w h).card = (hamPeriod w h).toNat := by
  obtain ⟨a, rfl⟩ := Int.eq_ofNat_of_zero_le (show (0 : Int) ≤ w by omega)
  obtain ⟨b, rfl⟩ := Int.eq_ofNat_of_zero_le (show (0 : Int) ≤ h by omega)
  by_cases hodd : odd (a : Int) = true ∧ odd (b : Int) = true
  · have hcor_mem : (⟨(a : Int) - 1, 0⟩ : Coordinate) ∈ gridFinset (a : Int) (b : Int) := by
      rw [mem_gridFinset]
      refine ⟨?_, ?_, ?_, ?_⟩
      · show (0 : Int) ≤ (a : Int) - 1
        omega
      · show (0 : Int) ≤ (0 : Int)
        omega
      · show (a : Int) - 1 < (a : Int)
        omega
      · show (0 : Int) < (b : Int)
        omega
    have hset : cycleFinset (a : Int) (b : Int) =
        (gridFinset (a : Int) (b : Int)).erase ⟨(a : Int) - 1, 0⟩ := by
      ext c
      rw [mem_cycleFinset, Finset.mem_erase, mem_gridFinset]
      unfold inCycle
      constructor
      · rintro ⟨hg, hncor⟩
        exact ⟨fun hc => hncor ⟨hodd.1, hodd.2, hc⟩, hg⟩
      · rintro ⟨hne, hg⟩
        exact ⟨hg, fun hcon => hne hcon.2.2⟩
    rw [hset, Finset.card_erase_of_mem hcor_mem, card_gridFinset]
    unfold hamPeriod
    rw [if_pos hodd, Int.toNat_natCast, Int.toNat_natCast, ← Nat.cast_mul]
    generalize a * b = n
    omega
  · have hset : cycleFinset (a : Int) (b : Int) = gridFinset (a : Int) (b : Int) := by
      ext c
      rw [mem_cycleFinset, mem_gridFinset]
      unfold inCycle
      constructor
      · rintro ⟨hg, _⟩
        exact hg
      · intro hg
        exact ⟨hg, fun hcon => hodd ⟨hcon.1, hcon.2.1⟩⟩
    rw [hset, card_gridFinset]
    unfold hamPeriod
    rw [if_neg hodd, Int.toNat_natCast, Int.toNat_natCast, ← Nat.cast_mul,
      Int.toNat_natCast]

/-- The orbit of `(0,0)` visits every cell of the cycle within one period. -/
theorem hamCover (w h : Int) (apple : Coordinate)
    (hw : 2 ≤ w) (hh : 2 ≤ h) (hap : apple.y ≠ 0) :
    ∀ c, inCycle w h c →
      ∃ t, t < (hamPeriod w h).toNat ∧ (hamStep w h apple)^[t] ⟨0, 0⟩ = c := by
  intro c hc
  have horb := hamOrbit w h apple hw hh hap
  have hsub : (Finset.range (hamPeriod w h).toNat).image
      (fun t => (hamStep w h apple)^[t] ⟨0, 0⟩) ⊆ cycleFinset w h := by
    intro p hp
    rw [Finset.mem_image] at hp
    obtain ⟨t, ht, rfl⟩ := hp
    rw [mem_cycleFinset]
    exact (horb t (Finset.mem_range.mp ht)).1
  have hcard : ((Finset.range (hamPeriod w h).toNat).image
      (fun t => (hamStep w h apple)^[t] ⟨0, 0⟩)).card = (hamPeriod w h).toNat := by
    rw [Finset.card_image_of_injOn, Finset.card_range]
    intro i hi j hj hij
    have hij2 : (hamStep w h apple)^[i] ⟨0, 0⟩ = (hamStep w h apple)^[j] ⟨0, 0⟩ := hij
    have h1 := (horb i (Finset.mem_range.mp hi)).2
    have h2 := (horb j (Finset.mem_range.mp hj)).2
    rw [hij2] at h1
    rw [h1] at h2
    exact_mod_cast h2
  have heq : (Finset.range (hamPeriod w h).toNat).image
      (fun t => (hamStep w h apple)^[t] ⟨0, 0⟩) = cycleFinset w h :=
    Finset.eq_of_subset_of_card_le hsub
      (le_of_eq ((card_cycleFinset w h hw hh).trans hcard.symm))
  have hmem : c ∈ (Finset.range (hamPeriod w h).toNat).image
      (fun t => (hamStep w h apple)^[t] ⟨0, 0⟩) := by
    rw [heq, mem_cycleFinset]
    exact hc
  rw [Finset.mem_image] at hmem
  obtain ⟨t, ht, hc'⟩ := hmem
  exact ⟨t, Finset.mem_range.mp ht, hc'⟩

/-- C1, amended.  For every grid with `W, H ≥ 2` and the apple not in row 0
(so the documented corner-case branch is inactive), repeatedly stepping in
the direction of `HamiltonianSnake::move_to`:
on a grid where `W` and `H` are not both odd, starting from any cell, the
orbit visits all `W*H` cells exactly once before returning to the start;
on an odd-by-odd grid the same holds with the top-right corner `(W-1, 0)`
removed — the orbit of period `W*H - 1` visits every cell except that corner
exactly once and never visits the corner.  (The original claim fails on
odd-by-odd grids, which admit no Hamiltonian cycle at all.) -/
theorem c1_hamiltonian_cycle_amended :
    ∀ (w h : Int) (apple start : Coordinate), 2 ≤ w → 2 ≤ h → apple.y ≠ 0 →
      inGrid w h start →
      ¬(odd w = true ∧ odd h = true ∧ start = ⟨w - 1, 0⟩) →
      ((hamStep w h apple)^[(hamPeriod w h).toNat] start = start) ∧
      (∀ i j : Nat, i < j → j < (hamPeriod w h).toNat →
        (hamStep w h apple)^[i] start ≠ (hamStep w h apple)^[j] start) ∧
      (∀ c, inGrid w h c → ¬(odd w = true ∧ odd h = true ∧ c = ⟨w - 1, 0⟩) →
        ∃ i, i < (hamPeriod w h).toNat ∧ (hamStep w h apple)^[i] start = c) ∧
      (¬(odd w = true ∧ odd h = true) → ((hamPeriod w h).toNat : Int) = w * h) ∧
      ((odd w = true ∧ odd h = true) →
        ((hamPeriod w h).toNat : Int) = w * h - 1 ∧
        ∀ i : Nat, (hamStep w h apple)^[i] start ≠ ⟨w - 1, 0⟩) := by
  intro w h apple start hw hh hap hgrid hcor
  have hstart : inCycle w h start := ⟨hgrid, hcor⟩
  have hNge := hamPeriod_ge w h hw hh
  have hwh4 : (4 : Int) ≤ w * h := by
    have := mul_le_mul hw hh (by norm_num) (by omega : (0 : Int) ≤ w)
    linarith
  have hNpos : 0 < (hamPeriod w h).toNat := by omega
  obtain ⟨t0, ht0N, ht0⟩ := hamCover w h apple hw hh hap start hstart
  have hclos := hamClosure w h apple hw hh hap
  have hper := iterate_eq_mod (hamStep w h apple) ⟨0, 0⟩ (hamPeriod w h).toNat hNpos hclos
  have hshift : ∀ i : Nat,
      (hamStep w h apple)^[i] start = (hamStep w h apple)^[i + t0] ⟨0, 0⟩ := by
    intro i
    rw [← ht0, ← Function.iterate_add_apply]
  refine ⟨?_, ?_, ?_, ?_, ?_⟩
  · rw [hshift, hper]
    have harith : ((hamPeriod w h).toNat + t0) % (hamPeriod w h).toNat = t0 := by
      rw [Nat.add_mod_left]
      exact Nat.mod_eq_of_lt ht0N
    rw [harith, ht0]
  · intro i j hij hjN heq
    rw [hshift i, hshift j, hper (i + t0), hper (j + t0)] at heq
    have h1 := (hamOrbit w h apple hw hh hap ((i + t0) % (hamPeriod w h).toNat)
      (Nat.mod_lt _ hNpos)).2
    have h2 := (hamOrbit w h apple hw hh hap ((j + t0) % (hamPeriod w h).toNat)
      (Nat.mod_lt _ hNpos)).2
    rw [heq] at h1
    rw [h1] at h2
    have hmodeq : (i + t0) % (hamPeriod w h).toNat = (j + t0) % (hamPeriod w h).toNat := by
      exact_mod_cast h2
    have hij' : i % (hamPeriod w h).toNat = j % (hamPeriod w h).toNat :=
      Nat.ModEq.add_right_cancel' t0 hmodeq
    rw [Nat.mod_eq_of_lt (by omega : i < (hamPeriod w h).toNat),
      Nat.mod_eq_of_lt hjN] at hij'
    omega
  · intro c hcg hccor
    obtain ⟨s, hsN, hs⟩ := hamCover w h apple hw hh hap c ⟨hcg, hccor⟩
    refine ⟨(s + (hamPeriod w h).toNat - t0) % (hamPeriod w h).toNat,
      Nat.mod_lt _ hNpos, ?_⟩
    rw [hshift, hper]
    have e1 : ((s + (hamPeriod w h).toNat - t0) % (hamPeriod w h).toNat + t0) %
        (hamPeriod w h).toNat =
        ((s + (hamPeriod w h).toNat - t0) + t0) % (hamPeriod w h).toNat :=
      (Nat.mod_modEq (s + (hamPeriod w h).toNat - t0) (hamPeriod w h).toNat).add_right t0
    have e2 : (s + (hamPeriod w h).toNat - t0) + t0 = s + (hamPeriod w h).toNat := by
      omega
    rw [e1, e2, Nat.add_mod_right, Nat.mod_eq_of_lt hsN, hs]
  · intro hno
    unfold hamPeriod
    rw [if_neg hno]
    exact Int.toNat_of_nonneg (by linarith)
  · intro hodd
    constructor
    · unfold hamPeriod
      rw [if_pos hodd]
      exact Int.toNat_of_nonneg (by linarith)
    · intro i hcontra
      have hcyc := (hamOrbit w h apple hw hh hap ((i + t0) % (hamPeriod w h).toNat)
        (Nat.mod_lt _ hNpos)).1
      rw [hshift, hper] at hcontra
      rw [hcontra] at hcyc
      exact hcyc.2 ⟨hodd.1, hodd.2, rfl⟩

/-- C1, witness: on the 4 by 4 grid the orbit from `(0,0)` closes after
exactly 16 distinct steps; on the 5 by 5 grid (odd by odd) the period is 24
and the corner `(4,0)` is never visited. -/
theorem c1_witness :
    ((hamStep 4 4 ⟨0, 1⟩)^[(hamPeriod 4 4).toNat] ⟨0, 0⟩ = ⟨0, 0⟩) ∧
    (∀ i j : Nat, i < j → j < (hamPeriod 4 4).toNat →
      (hamStep 4 4 ⟨0, 1⟩)^[i] ⟨0, 0⟩ ≠ (hamStep 4 4 ⟨0, 1⟩)^[j] ⟨0, 0⟩) ∧
    (hamPeriod 4 4).toNat = 16 ∧
    ((hamStep 5 5 ⟨0, 1⟩)^[(hamPeriod 5 5).toNat] ⟨0, 0⟩ = ⟨0, 0⟩) ∧
    (hamPeriod 5 5).toNat = 24 ∧
    (∀ i : Nat, (hamStep 5 5 ⟨0, 1⟩)^[i] ⟨0, 0⟩ ≠ ⟨4, 0⟩) := by
  have h4 := c1_hamiltonian_cycle_amended 4 4 ⟨0, 1⟩ ⟨0, 0⟩ (by norm_num) (by norm_num)
    (by norm_num) (by decide) (by decide)
  have h5 := c1_hamiltonian_cycle_amended 5 5 ⟨0, 1⟩ ⟨0, 0⟩ (by norm_num) (by norm_num)
    (by norm_num) (by decide) (by decide)
  exact ⟨h4.1, h4.2.1, by decide, h5.1, by decide,
    (h5.2.2.2.2 (by decide)).2⟩

end Snake
